import Mathlib

/-!
# Toast notification manager (`src/toast.js`)

A shallow embedding of the state and the operations of the `ToastManager` class.

* The manager's fields `toasts` (a JS `Map`, insertion ordered), `containers`
  and `toastCounter` are fields of `State`.
* The browser's timer service is made explicit: `setTimeout` allocates a fresh
  positive handle and appends a task to `pending`; `clearTimeout` removes the
  task and is recorded in `cancelled`; a pending task runs through `fire`.
* A handle returned by `setTimeout` is a positive integer, so `if (toast.timer)` is
  the test that the field is not `null`: `timer` is an `Option`.
* `Date.now()` is an argument `now` of the operations that read it.
* A toast's DOM element is identified with the toast id stored in its
  `dataset.toastId`; a container is the list of its `.toast-item` children in
  document order. CSS classes, styles, the timer bar and the
  `requestAnimationFrame` callbacks only change the presentation and are left out.
* Ids, handles and times are unbounded integers (a JS number is exact up to 2^53).
-/

namespace ToastManager

/-- The `options` object passed to `show`; an absent key is `none`. -/
structure Options where
  text : Option String := none
  type : Option String := none
  position : Option String := none
  duration : Option Int := none
  close : Option Bool := none
  stopOnFocus : Option Bool := none
  newWindow : Option Bool := none
  showTimerBar : Option Bool := none
  deriving DecidableEq, Repr

/-- The merged configuration `{ ...this.defaults, ...options }`. -/
structure Config where
  text : String
  type : String
  position : String
  duration : Int
  close : Bool
  stopOnFocus : Bool
  newWindow : Bool
  showTimerBar : Bool
  deriving DecidableEq, Repr

/-- The record stored in `this.toasts` for one toast (`element` is the id itself). -/
structure Toast where
  config : Config
  timer : Option Nat
  startTime : Int
  remainingTime : Int
  isPaused : Bool
  deriving DecidableEq, Repr

/-- The callback of a scheduled `setTimeout`. -/
inductive Action where
  /-- The callback of `startTimer`: `this.dismiss(toastId)`. -/
  | dismiss (toastId : Nat)
  /-- The callback passed to `animateOut` by `dismiss`, closed over the toast record. -/
  | exit (toastId : Nat) (position : String)
  deriving DecidableEq, Repr

/-- A scheduled task of the timer service. -/
structure Task where
  handle : Nat
  delay : Int
  action : Action
  deriving DecidableEq, Repr

/-- The manager state together with the state of the timer service. -/
structure State where
  toasts : List (Nat × Toast)
  containers : List (String × List Nat)
  toastCounter : Nat
  timerCounter : Nat
  pending : List Task
  cancelled : List Nat
  deriving DecidableEq, Repr

/-- The value of `this.maxToasts`, set in the constructor and never reassigned. -/
def maxToasts : Nat := 5

/-- The value of `this.defaultDuration`. -/
def defaultDuration : Int := 3000

/-- The state built by the constructor. -/
def init : State :=
  { toasts := [], containers := [], toastCounter := 0, timerCounter := 0,
    pending := [], cancelled := [] }

/-! ## The `Map` operations -/

/-- `Map.prototype.get`. -/
def mapGet {β : Type} (m : List (Nat × β)) (k : Nat) : Option β :=
  match m with
  | [] => none
  | (k1, v) :: rest => if k1 = k then some v else mapGet rest k

/-- `Map.prototype.delete`. -/
def mapDelete {β : Type} (m : List (Nat × β)) (k : Nat) : List (Nat × β) :=
  match m with
  | [] => []
  | (k1, v) :: rest => if k1 = k then mapDelete rest k else (k1, v) :: mapDelete rest k

/-- In-place mutation of the record stored under `k`. -/
def mapUpdate {β : Type} (m : List (Nat × β)) (k : Nat) (v : β) : List (Nat × β) :=
  match m with
  | [] => []
  | (k1, v1) :: rest =>
    if k1 = k then (k1, v) :: mapUpdate rest k v else (k1, v1) :: mapUpdate rest k v

/-- `Map.prototype.set`: replaces the value of an existing key, appends a new key. -/
def mapSet {β : Type} (m : List (Nat × β)) (k : Nat) (v : β) : List (Nat × β) :=
  match mapGet m k with
  | some _ => mapUpdate m k v
  | none => m ++ [(k, v)]

/-- `Array.from(map.keys())`. -/
def mapKeys {β : Type} (m : List (Nat × β)) : List Nat :=
  m.map Prod.fst

/-! ## The timer service -/

/-- `setTimeout(callback, delay)`: returns the new state and the fresh handle. -/
def setTimeout (s : State) (action : Action) (delay : Int) : State × Nat :=
  let h := s.timerCounter + 1
  ({ s with timerCounter := h, pending := s.pending ++ [⟨h, delay, action⟩] }, h)

/-- `clearTimeout(handle)`. -/
def clearTimeout (s : State) (h : Nat) : State :=
  { s with pending := s.pending.filter (fun t => t.handle ≠ h),
           cancelled := s.cancelled ++ [h] }

/-! ## The DOM of the containers -/

/-- `this.containers.get(position)` as the list of the container's toast elements. -/
def containerGet (cs : List (String × List Nat)) (position : String) : Option (List Nat) :=
  match cs with
  | [] => none
  | (p, children) :: rest => if p = position then some children else containerGet rest position

/-- `element.parentNode` of the element of toast `id`: the container holding it. -/
def parentNode (s : State) (id : Nat) : Option String :=
  (s.containers.find? (fun c => decide (id ∈ c.2))).map Prod.fst

/-- `parent.removeChild(element)`. -/
def removeChild (s : State) (parent : String) (id : Nat) : State :=
  let detach := fun (c : String × List Nat) =>
    if c.1 = parent then (c.1, c.2.filter (fun x => x ≠ id)) else c
  { s with containers := s.containers.map detach }

/-- `container.appendChild(element)` for a freshly created element. -/
def appendChild (s : State) (position : String) (id : Nat) : State :=
  let attach := fun (c : String × List Nat) =>
    if c.1 = position then (c.1, c.2 ++ [id]) else c
  { s with containers := s.containers.map attach }

/-- `getContainer(position)`: creates the container on first use. -/
def getContainer (s : State) (position : String) : State :=
  match containerGet s.containers position with
  | some _ => s
  | none => { s with containers := s.containers ++ [(position, [])] }

/-! ## The manager's methods -/

/-- `animateOut(element, position, callback)`: the callback is scheduled after 300 ms. -/
def animateOut (s : State) (id : Nat) (position : String) : State :=
  (setTimeout s (Action.exit id position) 300).1

/-- `dismiss(toastId)`. -/
def dismiss (s : State) (toastId : Nat) : State :=
  match mapGet s.toasts toastId with
  | none => s
  | some toast =>
    let s1 := match toast.timer with
      | some h => clearTimeout s h
      | none => s
    let s2 := animateOut s1 toastId toast.config.position
    { s2 with toasts := mapDelete s2.toasts toastId }

/-- The callback `dismiss` hands to `animateOut`. The container is read from
`parentNode` again after the element was removed from it. -/
def exitCallback (s : State) (id : Nat) (position : String) : State :=
  let s1 := match parentNode s id with
    | some p => removeChild s p id
    | none => s
  match parentNode s1 id with
  | some c =>
    if ((containerGet s1.containers c).getD []).length = 0 then
      { s1 with containers := s1.containers.filter (fun x => x.1 ≠ position ∧ x.1 ≠ c) }
    else s1
  | none => s1

/-- `enforceMaxToasts(position)`. -/
def enforceMaxToasts (s : State) (position : String) : State :=
  match containerGet s.containers position with
  | none => s
  | some children =>
    if children.length ≥ maxToasts then
      match children.head? with
      | some oldest => dismiss s oldest
      | none => s
    else s

/-- `startTimer(toastId)`. -/
def startTimer (s : State) (toastId : Nat) : State :=
  match mapGet s.toasts toastId with
  | none => s
  | some toast =>
    if toast.config.duration ≤ 0 then s
    else
      let r := setTimeout s (Action.dismiss toastId) toast.remainingTime
      let toast1 : Toast := { toast with timer := some r.2 }
      { r.1 with toasts := mapUpdate r.1.toasts toastId toast1 }

/-- `pauseTimer(toastId)`, with `now` the value of `Date.now()`. -/
def pauseTimer (s : State) (toastId : Nat) (now : Int) : State :=
  match mapGet s.toasts toastId with
  | none => s
  | some toast =>
    if toast.isPaused then s
    else
      let elapsed := now - toast.startTime
      let toast1 : Toast :=
        { toast with isPaused := true,
                     remainingTime := max 0 (toast.config.duration - elapsed) }
      match toast1.timer with
      | some h =>
        let s1 := clearTimeout s h
        let toast2 : Toast := { toast1 with timer := none }
        { s1 with toasts := mapUpdate s1.toasts toastId toast2 }
      | none => { s with toasts := mapUpdate s.toasts toastId toast1 }

/-- `resumeTimer(toastId)`, with `now` the value of `Date.now()`. -/
def resumeTimer (s : State) (toastId : Nat) (now : Int) : State :=
  match mapGet s.toasts toastId with
  | none => s
  | some toast =>
    if !toast.isPaused then s
    else
      let toast1 : Toast := { toast with isPaused := false, startTime := now }
      let s1 : State := { s with toasts := mapUpdate s.toasts toastId toast1 }
      startTimer s1 toastId

/-- The configuration `{ ...this.defaults, ...options }` for a request with text `text`. -/
def mkConfig (o : Options) (text : String) : Config :=
  { text := text,
    type := o.type.getD "info",
    position := o.position.getD "top-right",
    duration := o.duration.getD defaultDuration,
    close := o.close.getD true,
    stopOnFocus := o.stopOnFocus.getD true,
    newWindow := o.newWindow.getD true,
    showTimerBar := o.showTimerBar.getD true }

/-- The body of `show(options)` after the validation of `options.text`. -/
def showConfig (s : State) (config : Config) (now : Int) : State × Nat :=
  let toastId := s.toastCounter + 1
  let s1 : State := { s with toastCounter := toastId }
  let s2 := enforceMaxToasts s1 config.position
  let s3 := getContainer s2 config.position
  let toast : Toast :=
    { config := config, timer := none, startTime := now,
      remainingTime := config.duration, isPaused := false }
  let s4 : State := { s3 with toasts := mapSet s3.toasts toastId toast }
  let s5 := appendChild s4 config.position toastId
  let s6 := if config.duration > 0 then startTimer s5 toastId else s5
  (s6, toastId)

/-- `show(options)`: the new state and the returned id (`none` is the returned `null`).
`!options || !options.text` holds for a missing `options`, a missing `text` and the
empty string. -/
def showToast (s : State) (options : Option Options) (now : Int) : State × Option Nat :=
  match options with
  | none => (s, none)
  | some o =>
    match o.text with
    | none => (s, none)
    | some text =>
      if text = "" then (s, none)
      else
        let r := showConfig s (mkConfig o text) now
        (r.1, some r.2)

/-- `clearAll()`. -/
def clearAll (s : State) : State :=
  (mapKeys s.toasts).foldl dismiss s

/-- A pending task of the timer service comes due: it leaves the queue and its
callback runs. -/
def fire (s : State) (h : Nat) : State :=
  match s.pending.find? (fun t => decide (t.handle = h)) with
  | none => s
  | some task =>
    let s1 : State := { s with pending := s.pending.filter (fun t => t.handle ≠ h) }
    match task.action with
    | Action.dismiss id => dismiss s1 id
    | Action.exit id position => exitCallback s1 id position

/-! ## Sessions -/

/-- What can happen to a manager: a call of a method, or a scheduled callback running. -/
inductive Event where
  | show (options : Option Options) (now : Int)
  | dismiss (toastId : Nat)
  | pauseTimer (toastId : Nat) (now : Int)
  | resumeTimer (toastId : Nat) (now : Int)
  | clearAll
  | fire (handle : Nat)
  deriving DecidableEq, Repr

/-- The state after one event. -/
def step (s : State) (e : Event) : State :=
  match e with
  | Event.show options now => (showToast s options now).1
  | Event.dismiss id => dismiss s id
  | Event.pauseTimer id now => pauseTimer s id now
  | Event.resumeTimer id now => resumeTimer s id now
  | Event.clearAll => clearAll s
  | Event.fire h => fire s h

/-- The state after a sequence of events. -/
def run (s : State) (es : List Event) : State :=
  es.foldl step s

/-- The ids returned by the successful `show` calls of a sequence of events, in order. -/
def shownIds (s : State) (es : List Event) : List Nat :=
  match es with
  | [] => []
  | Event.show options now :: rest =>
    match (showToast s options now).2 with
    | some id => id :: shownIds (showToast s options now).1 rest
    | none => shownIds (showToast s options now).1 rest
  | e :: rest => shownIds (step s e) rest

/-- The number of registered toasts whose position is `zone`. -/
def zoneCount (s : State) (zone : String) : Nat :=
  (s.toasts.filter (fun p => decide (p.2.config.position = zone))).length

/-- The pending dismissal tasks that target toast `id`. -/
def dismissalsOf (s : State) (id : Nat) : List Task :=
  s.pending.filter (fun t => decide (t.action = Action.dismiss id))

/-- A request with the given text and duration, everything else defaulted. -/
def request (text : String) (duration : Int) : Option Options :=
  some { text := some text, duration := some duration }


/-- The record `show` stores for a new toast created at time `now`. -/
def newRecord (config : Config) (now : Int) : Toast :=
  { config := config, timer := none, startTime := now,
    remainingTime := config.duration, isPaused := false }

/-- The record of `toast` once `pauseTimer` ran on it at time `now`. -/
def pausedRecord (toast : Toast) (now : Int) : Toast :=
  { config := toast.config, timer := none, startTime := toast.startTime,
    remainingTime := max 0 (toast.config.duration - (now - toast.startTime)),
    isPaused := true }

/-- The record of `toast` once `resumeTimer` marked it running at time `now`,
before its timer is started. -/
def resumedRecord (toast : Toast) (now : Int) : Toast :=
  { config := toast.config, timer := toast.timer, startTime := now,
    remainingTime := toast.remainingTime, isPaused := false }

/-- The toast a scheduled callback acts on. -/
def Action.target (a : Action) : Nat :=
  match a with
  | Action.dismiss id => id
  | Action.exit id _ => id

/-- The events by which a toast `id` is taken out of the registry on request: an
explicit `dismiss(id)`, a `show` (which may evict it) and `clearAll`. -/
def isRemoval (id : Nat) (e : Event) : Bool :=
  match e with
  | Event.show _ _ => true
  | Event.dismiss k => k == id
  | Event.clearAll => true
  | _ => false

/-- The bookkeeping invariant of the registry and the timer service: keys are
unique and at most the counter, a registered toast's timer handle was allocated,
every pending dismissal task belongs to the registered toast whose `timer` is its
handle, two toasts never share a handle, a toast that is paused or whose
duration is not positive has no timer, and a pending exit callback belongs to an id
that was handed out and is no longer registered. -/
structure Inv (s : State) : Prop where
  keys_nodup : (mapKeys s.toasts).Nodup
  ids_le : ∀ id toast, mapGet s.toasts id = some toast → id ≤ s.toastCounter
  timer_le : ∀ id toast h, mapGet s.toasts id = some toast → toast.timer = some h →
    h ≤ s.timerCounter
  owner : ∀ t ∈ s.pending, ∀ id, t.action = Action.dismiss id →
    ∃ toast, mapGet s.toasts id = some toast ∧ toast.timer = some t.handle
  timer_inj : ∀ id1 id2 t1 t2 h, mapGet s.toasts id1 = some t1 →
    mapGet s.toasts id2 = some t2 → t1.timer = some h → t2.timer = some h → id1 = id2
  no_timer : ∀ id toast, mapGet s.toasts id = some toast → toast.config.duration ≤ 0 →
    toast.timer = none
  paused_no_timer : ∀ id toast, mapGet s.toasts id = some toast → toast.isPaused = true →
    toast.timer = none
  exit_owner : ∀ t ∈ s.pending, ∀ id position, t.action = Action.exit id position →
    mapGet s.toasts id = none ∧ id ≤ s.toastCounter

/-! ## Facts about the `Map` operations -/

theorem mapGet_mem {β : Type} (m : List (Nat × β)) (k : Nat) (v : β)
    (h : mapGet m k = some v) : (k, v) ∈ m := by
  induction m with
  | nil => simp [mapGet] at h
  | cons p rest ih =>
    obtain ⟨k1, v1⟩ := p
    by_cases hk : k1 = k
    · simp [mapGet, hk] at h
      simp [hk, h]
    · simp [mapGet, hk] at h
      exact List.mem_cons_of_mem _ (ih h)

theorem mapGet_none_iff {β : Type} (m : List (Nat × β)) (k : Nat) :
    mapGet m k = none ↔ k ∉ mapKeys m := by
  induction m with
  | nil => simp [mapGet, mapKeys]
  | cons p rest ih =>
    obtain ⟨k1, v1⟩ := p
    by_cases hk : k1 = k
    · simp [mapGet, mapKeys, hk]
    · have hk2 : ¬ k = k1 := fun h => hk h.symm
      simp only [mapKeys] at ih
      simp [mapGet, mapKeys, hk, hk2, ih]

theorem mem_mapGet {β : Type} (m : List (Nat × β)) (k : Nat) (v : β)
    (hnd : (mapKeys m).Nodup) (h : (k, v) ∈ m) : mapGet m k = some v := by
  induction m with
  | nil => simp at h
  | cons p rest ih =>
    obtain ⟨k1, v1⟩ := p
    simp only [mapKeys, List.map_cons, List.nodup_cons] at hnd
    rcases List.mem_cons.mp h with heq | hmem
    · simp only [Prod.mk.injEq] at heq
      simp [mapGet, heq.1, heq.2]
    · have hne : k1 ≠ k := by
        intro hk
        apply hnd.1
        rw [hk]
        exact List.mem_map_of_mem Prod.fst hmem
      simp only [mapGet, hne, if_false]
      exact ih hnd.2 hmem

theorem mapGet_mapDelete {β : Type} (m : List (Nat × β)) (k k1 : Nat) :
    mapGet (mapDelete m k) k1 = if k1 = k then none else mapGet m k1 := by
  induction m with
  | nil => simp [mapGet, mapDelete]
  | cons p rest ih =>
    obtain ⟨k2, v2⟩ := p
    by_cases h2 : k2 = k
    · by_cases h1 : k1 = k
      · subst h1
        simpa [mapDelete, h2] using ih
      · have h3 : ¬ k = k1 := fun h => h1 h.symm
        simp [mapDelete, mapGet, h2, h1, h3, ih]
    · by_cases h1 : k1 = k
      · subst h1
        simpa [mapDelete, mapGet, h2] using ih
      · simp [mapDelete, mapGet, h2, h1, ih]

theorem mapGet_mapUpdate {β : Type} (m : List (Nat × β)) (k k1 : Nat) (v : β) :
    mapGet (mapUpdate m k v) k1
      = if k1 = k then (mapGet m k).map (fun _ => v) else mapGet m k1 := by
  induction m with
  | nil => simp [mapGet, mapUpdate]
  | cons p rest ih =>
    obtain ⟨k2, v2⟩ := p
    by_cases h2 : k2 = k
    · by_cases h1 : k1 = k
      · simp [mapUpdate, mapGet, h2, h1]
      · have h3 : ¬ k = k1 := fun h => h1 h.symm
        simp [mapUpdate, mapGet, h2, h1, h3, ih]
    · by_cases h1 : k1 = k
      · subst h1
        simpa [mapUpdate, mapGet, h2] using ih
      · simp [mapUpdate, mapGet, h2, h1, ih]

theorem mapKeys_mapUpdate {β : Type} (m : List (Nat × β)) (k : Nat) (v : β) :
    mapKeys (mapUpdate m k v) = mapKeys m := by
  induction m with
  | nil => simp [mapKeys, mapUpdate]
  | cons p rest ih =>
    obtain ⟨k2, v2⟩ := p
    simp only [mapKeys] at ih
    by_cases h : k2 = k
    · simp [mapKeys, mapUpdate, h, ih]
    · simp [mapKeys, mapUpdate, h, ih]

theorem mapKeys_mapDelete_sublist {β : Type} (m : List (Nat × β)) (k : Nat) :
    (mapKeys (mapDelete m k)).Sublist (mapKeys m) := by
  induction m with
  | nil => simp [mapKeys, mapDelete]
  | cons p rest ih =>
    obtain ⟨k2, v2⟩ := p
    simp only [mapKeys] at ih
    by_cases h : k2 = k
    · simp only [mapKeys, mapDelete, h, if_true, List.map_cons]
      exact List.Sublist.cons _ ih
    · simp only [mapKeys, mapDelete, h, if_false, List.map_cons]
      exact List.Sublist.cons₂ _ ih

theorem mapKeys_mapDelete_nodup {β : Type} (m : List (Nat × β)) (k : Nat)
    (hnd : (mapKeys m).Nodup) : (mapKeys (mapDelete m k)).Nodup :=
  List.Nodup.sublist (mapKeys_mapDelete_sublist m k) hnd

theorem mapDelete_of_not_mem {β : Type} (m : List (Nat × β)) (k : Nat)
    (h : k ∉ mapKeys m) : mapDelete m k = m := by
  induction m with
  | nil => simp [mapDelete]
  | cons p rest ih =>
    obtain ⟨k2, v2⟩ := p
    simp only [mapKeys, List.map_cons, List.mem_cons, not_or] at h
    have h2 : ¬ k2 = k := fun e => h.1 e.symm
    simp only [mapDelete, h2, if_false]
    rw [ih h.2]

theorem mapGet_append_single {β : Type} (m : List (Nat × β)) (k k1 : Nat) (v : β) :
    mapGet (m ++ [(k, v)]) k1
      = match mapGet m k1 with
        | some w => some w
        | none => if k = k1 then some v else none := by
  induction m with
  | nil => simp [mapGet]
  | cons p rest ih =>
    obtain ⟨k2, v2⟩ := p
    by_cases h2 : k2 = k1
    · simp [mapGet, h2]
    · simp [mapGet, h2, ih]

theorem mapGet_mapSet {β : Type} (m : List (Nat × β)) (k k1 : Nat) (v : β) :
    mapGet (mapSet m k v) k1 = if k1 = k then some v else mapGet m k1 := by
  unfold mapSet
  cases hg : mapGet m k with
  | some w =>
    simp only [mapGet_mapUpdate, hg, Option.map_some']
  | none =>
    simp only [mapGet_append_single]
    by_cases h1 : k1 = k
    · subst h1
      simp [hg]
    · have h1b : ¬ k = k1 := fun h => h1 h.symm
      simp only [h1, h1b, if_false]
      cases mapGet m k1 <;> rfl

theorem mapKeys_mapSet_nodup {β : Type} (m : List (Nat × β)) (k : Nat) (v : β)
    (hnd : (mapKeys m).Nodup) : (mapKeys (mapSet m k v)).Nodup := by
  unfold mapSet
  cases hg : mapGet m k with
  | some w => simpa [mapKeys_mapUpdate] using hnd
  | none =>
    have hk : k ∉ mapKeys m := (mapGet_none_iff m k).mp hg
    simp only [mapKeys, List.map_append, List.map_cons, List.map_nil] at *
    exact List.Nodup.append hnd (List.nodup_singleton k) (by simpa using hk)

theorem mapGet_mapDelete_some {β : Type} (m : List (Nat × β)) (k k1 : Nat) (v : β)
    (h : mapGet (mapDelete m k) k1 = some v) : k1 ≠ k ∧ mapGet m k1 = some v := by
  rw [mapGet_mapDelete] at h
  by_cases hk : k1 = k
  · simp [hk] at h
  · simp only [hk, if_false] at h
    exact ⟨hk, h⟩

theorem mapGet_mapUpdate_some {β : Type} (m : List (Nat × β)) (k k1 : Nat) (v w : β)
    (h : mapGet (mapUpdate m k v) k1 = some w) :
    (k1 = k ∧ w = v) ∨ (k1 ≠ k ∧ mapGet m k1 = some w) := by
  rw [mapGet_mapUpdate] at h
  by_cases hk : k1 = k
  · left
    simp only [hk, if_true] at h
    cases hg : mapGet m k with
    | none => simp [hg] at h
    | some u =>
      simp only [hg, Option.map_some', Option.some.injEq] at h
      exact ⟨hk, h.symm⟩
  · right
    simp only [hk, if_false] at h
    exact ⟨hk, h⟩

/-! ## The effect of `dismiss` -/

theorem dismiss_none (s : State) (id : Nat) (h : mapGet s.toasts id = none) :
    dismiss s id = s := by
  simp [dismiss, h]

/-- The tasks left pending once the timer `timer` of a toast was cleared. -/
theorem dismiss_some (s : State) (id : Nat) (toast : Toast)
    (h : mapGet s.toasts id = some toast) :
    dismiss s id =
      { toasts := mapDelete s.toasts id,
        containers := s.containers,
        toastCounter := s.toastCounter,
        timerCounter := s.timerCounter + 1,
        pending := (match toast.timer with
          | some h => s.pending.filter (fun t => t.handle ≠ h)
          | none => s.pending)
          ++ [⟨s.timerCounter + 1, 300, Action.exit id toast.config.position⟩],
        cancelled := match toast.timer with
          | some h => s.cancelled ++ [h]
          | none => s.cancelled } := by
  simp only [dismiss, h]
  cases toast.timer <;> simp [animateOut, setTimeout, clearTimeout]

theorem dismiss_toasts (s : State) (id : Nat) :
    (dismiss s id).toasts = mapDelete s.toasts id := by
  cases hg : mapGet s.toasts id with
  | none =>
    rw [dismiss_none s id hg, mapDelete_of_not_mem _ _ ((mapGet_none_iff _ _).mp hg)]
  | some toast => rw [dismiss_some s id toast hg]

theorem dismiss_toastCounter (s : State) (id : Nat) :
    (dismiss s id).toastCounter = s.toastCounter := by
  cases hg : mapGet s.toasts id with
  | none => rw [dismiss_none s id hg]
  | some toast => rw [dismiss_some s id toast hg]

theorem dismiss_containers (s : State) (id : Nat) :
    (dismiss s id).containers = s.containers := by
  cases hg : mapGet s.toasts id with
  | none => rw [dismiss_none s id hg]
  | some toast => rw [dismiss_some s id toast hg]

theorem Inv_dismiss (s : State) (id : Nat) (hi : Inv s) : Inv (dismiss s id) := by
  cases hg : mapGet s.toasts id with
  | none => rw [dismiss_none s id hg]; exact hi
  | some toast =>
    rw [dismiss_some s id toast hg]
    constructor
    · exact mapKeys_mapDelete_nodup _ _ hi.keys_nodup
    · intro id1 t1 h1
      exact hi.ids_le id1 t1 (mapGet_mapDelete_some _ _ _ _ h1).2
    · intro id1 t1 h h1 ht
      have := hi.timer_le id1 t1 h (mapGet_mapDelete_some _ _ _ _ h1).2 ht
      simp only
      omega
    · intro t ht id1 ha
      simp only [List.mem_append, List.mem_singleton] at ht
      rcases ht with ht | ht
      · have hmem : t ∈ s.pending := by
          cases htm : toast.timer with
          | none => simpa [htm] using ht
          | some h0 =>
            simp only [htm, List.mem_filter] at ht
            exact ht.1
        obtain ⟨toast1, hg1, ht1⟩ := hi.owner t hmem id1 ha
        refine ⟨toast1, ?_, ht1⟩
        rw [mapGet_mapDelete]
        have hne : id1 ≠ id := by
          intro he
          subst he
          rw [hg] at hg1
          cases hg1
          simp [ht1] at ht
        simp [hne, hg1]
      · subst ht
        simp at ha
    · intro id1 id2 t1 t2 h h1 h2
      exact hi.timer_inj id1 id2 t1 t2 h (mapGet_mapDelete_some _ _ _ _ h1).2
        (mapGet_mapDelete_some _ _ _ _ h2).2
    · intro id1 t1 h1
      exact hi.no_timer id1 t1 (mapGet_mapDelete_some _ _ _ _ h1).2
    · intro id1 t1 h1
      exact hi.paused_no_timer id1 t1 (mapGet_mapDelete_some _ _ _ _ h1).2
    · intro t ht id1 pos ha
      simp only [List.mem_append, List.mem_singleton] at ht
      rcases ht with ht | ht
      · have hmem : t ∈ s.pending := by
          cases htm : toast.timer with
          | none => simpa [htm] using ht
          | some h0 =>
            simp only [htm, List.mem_filter] at ht
            exact ht.1
        obtain ⟨hn, hl⟩ := hi.exit_owner t hmem id1 pos ha
        refine ⟨?_, hl⟩
        rw [mapGet_mapDelete, hn]
        simp
      · subst ht
        simp only [Action.exit.injEq] at ha
        obtain ⟨ha1, _⟩ := ha
        subst ha1
        refine ⟨?_, hi.ids_le id toast hg⟩
        simp [mapGet_mapDelete]

/-! ## The invariant is kept by every operation -/

theorem Inv_init : Inv init := by
  constructor <;> simp [init, mapKeys, mapGet]

/-- The invariant does not read the containers or the log of cancellations. -/
theorem Inv_congr (s s1 : State) (hi : Inv s) (h1 : s1.toasts = s.toasts)
    (h2 : s1.toastCounter = s.toastCounter) (h3 : s1.timerCounter = s.timerCounter)
    (h4 : s1.pending = s.pending) : Inv s1 := by
  constructor
  · rw [h1]; exact hi.keys_nodup
  · rw [h1, h2]; exact hi.ids_le
  · rw [h1, h3]; exact hi.timer_le
  · rw [h1, h4]; exact hi.owner
  · rw [h1]; exact hi.timer_inj
  · rw [h1]; exact hi.no_timer
  · rw [h1]; exact hi.paused_no_timer
  · rw [h1, h2, h4]; exact hi.exit_owner

/-- Replacing the record of a registered toast by one without a timer, while
dropping the tasks of its former handle, keeps the invariant. -/
theorem Inv_set_idle (s : State) (id : Nat) (toast toast1 : Toast) (pend : List Task)
    (canc : List Nat) (hi : Inv s) (hg : mapGet s.toasts id = some toast)
    (ht : toast1.timer = none) (hsub : ∀ t ∈ pend, t ∈ s.pending)
    (hno : ∀ t ∈ pend, ∀ h, toast.timer = some h → t.handle ≠ h) :
    Inv { s with toasts := mapUpdate s.toasts id toast1, pending := pend,
                 cancelled := canc } := by
  constructor
  · simp only [mapKeys_mapUpdate]; exact hi.keys_nodup
  · intro id1 t1 h1
    rcases mapGet_mapUpdate_some _ _ _ _ _ h1 with ⟨he, _⟩ | ⟨_, h2⟩
    · rw [he]; exact hi.ids_le id toast hg
    · exact hi.ids_le id1 t1 h2
  · intro id1 t1 h h1 htm
    rcases mapGet_mapUpdate_some _ _ _ _ _ h1 with ⟨_, hw⟩ | ⟨_, h2⟩
    · rw [hw, ht] at htm; cases htm
    · exact hi.timer_le id1 t1 h h2 htm
  · intro t htp id1 ha
    obtain ⟨toast2, hg2, ht2⟩ := hi.owner t (hsub t htp) id1 ha
    have hne : id1 ≠ id := by
      intro he
      subst he
      rw [hg] at hg2
      cases hg2
      exact hno t htp t.handle ht2 rfl
    refine ⟨toast2, ?_, ht2⟩
    simp only [mapGet_mapUpdate, hne, if_false]
    exact hg2
  · intro id1 id2 t1 t2 h h1 h2 htm1 htm2
    rcases mapGet_mapUpdate_some _ _ _ _ _ h1 with ⟨_, hw⟩ | ⟨_, h1a⟩
    · rw [hw, ht] at htm1; cases htm1
    · rcases mapGet_mapUpdate_some _ _ _ _ _ h2 with ⟨_, hw⟩ | ⟨_, h2a⟩
      · rw [hw, ht] at htm2; cases htm2
      · exact hi.timer_inj id1 id2 t1 t2 h h1a h2a htm1 htm2
  · intro id1 t1 h1 hd
    rcases mapGet_mapUpdate_some _ _ _ _ _ h1 with ⟨_, hw⟩ | ⟨_, h2⟩
    · rw [hw]; exact ht
    · exact hi.no_timer id1 t1 h2 hd
  · intro id1 t1 h1 hd
    rcases mapGet_mapUpdate_some _ _ _ _ _ h1 with ⟨_, hw⟩ | ⟨_, h2⟩
    · rw [hw]; exact ht
    · exact hi.paused_no_timer id1 t1 h2 hd
  · intro t htp id1 pos ha
    obtain ⟨hn, hl⟩ := hi.exit_owner t (hsub t htp) id1 pos ha
    refine ⟨?_, hl⟩
    have hne : id1 ≠ id := by
      intro he
      subst he
      rw [hg] at hn
      cases hn
    simp only [mapGet_mapUpdate, hne, if_false]
    exact hn

theorem startTimer_none (s : State) (id : Nat) (h : mapGet s.toasts id = none) :
    startTimer s id = s := by
  simp [startTimer, h]

theorem startTimer_nonpos (s : State) (id : Nat) (toast : Toast)
    (h : mapGet s.toasts id = some toast) (hd : toast.config.duration ≤ 0) :
    startTimer s id = s := by
  simp [startTimer, h, hd]

theorem startTimer_pos (s : State) (id : Nat) (toast : Toast)
    (h : mapGet s.toasts id = some toast) (hd : 0 < toast.config.duration) :
    startTimer s id =
      { toasts := mapUpdate s.toasts id { toast with timer := some (s.timerCounter + 1) },
        containers := s.containers,
        toastCounter := s.toastCounter,
        timerCounter := s.timerCounter + 1,
        pending := s.pending ++ [⟨s.timerCounter + 1, toast.remainingTime, Action.dismiss id⟩],
        cancelled := s.cancelled } := by
  have hd1 : ¬ toast.config.duration ≤ 0 := not_le.mpr hd
  simp [startTimer, h, hd1, setTimeout]

theorem Inv_startTimer (s : State) (id : Nat) (hi : Inv s)
    (hidle : ∀ toast, mapGet s.toasts id = some toast →
      toast.timer = none ∧ toast.isPaused = false) : Inv (startTimer s id) := by
  cases hg : mapGet s.toasts id with
  | none => rw [startTimer_none s id hg]; exact hi
  | some toast =>
    by_cases hd : toast.config.duration ≤ 0
    · rw [startTimer_nonpos s id toast hg hd]; exact hi
    · rw [startTimer_pos s id toast hg (not_le.mp hd)]
      obtain ⟨htn, hpf⟩ := hidle toast hg
      constructor
      · simp only [mapKeys_mapUpdate]; exact hi.keys_nodup
      · intro id1 t1 h1
        rcases mapGet_mapUpdate_some _ _ _ _ _ h1 with ⟨he, _⟩ | ⟨_, h2⟩
        · rw [he]; exact hi.ids_le id toast hg
        · exact hi.ids_le id1 t1 h2
      · intro id1 t1 h h1 htm
        rcases mapGet_mapUpdate_some _ _ _ _ _ h1 with ⟨_, hw⟩ | ⟨_, h2⟩
        · rw [hw] at htm
          simp only [Option.some.injEq] at htm
          simp only
          omega
        · have := hi.timer_le id1 t1 h h2 htm
          simp only
          omega
      · intro t htp id1 ha
        simp only [List.mem_append, List.mem_singleton] at htp
        rcases htp with htp | htp
        · obtain ⟨toast2, hg2, ht2⟩ := hi.owner t htp id1 ha
          have hne : id1 ≠ id := by
            intro he
            subst he
            rw [hg] at hg2
            cases hg2
            rw [htn] at ht2
            cases ht2
          refine ⟨toast2, ?_, ht2⟩
          simp only [mapGet_mapUpdate, hne, if_false]
          exact hg2
        · subst htp
          simp only [Action.dismiss.injEq] at ha
          subst ha
          refine ⟨{ toast with timer := some (s.timerCounter + 1) }, ?_, rfl⟩
          simp [mapGet_mapUpdate, hg]
      · intro id1 id2 t1 t2 h h1 h2 htm1 htm2
        rcases mapGet_mapUpdate_some _ _ _ _ _ h1 with ⟨he1, hw1⟩ | ⟨_, h1a⟩
        · rcases mapGet_mapUpdate_some _ _ _ _ _ h2 with ⟨he2, _⟩ | ⟨_, h2a⟩
          · rw [he1, he2]
          · rw [hw1] at htm1
            simp only [Option.some.injEq] at htm1
            have := hi.timer_le id2 t2 h h2a htm2
            omega
        · rcases mapGet_mapUpdate_some _ _ _ _ _ h2 with ⟨_, hw2⟩ | ⟨_, h2a⟩
          · rw [hw2] at htm2
            simp only [Option.some.injEq] at htm2
            have := hi.timer_le id1 t1 h h1a htm1
            omega
          · exact hi.timer_inj id1 id2 t1 t2 h h1a h2a htm1 htm2
      · intro id1 t1 h1 hd1
        rcases mapGet_mapUpdate_some _ _ _ _ _ h1 with ⟨_, hw⟩ | ⟨_, h2⟩
        · rw [hw] at hd1
          exact absurd hd1 hd
        · exact hi.no_timer id1 t1 h2 hd1
      · intro id1 t1 h1 hp1
        rcases mapGet_mapUpdate_some _ _ _ _ _ h1 with ⟨_, hw⟩ | ⟨_, h2⟩
        · rw [hw] at hp1
          simp only [hpf] at hp1
          cases hp1
        · exact hi.paused_no_timer id1 t1 h2 hp1
      · intro t htp id1 pos ha
        simp only [List.mem_append, List.mem_singleton] at htp
        rcases htp with htp | htp
        · obtain ⟨hn, hl⟩ := hi.exit_owner t htp id1 pos ha
          refine ⟨?_, hl⟩
          have hne : id1 ≠ id := by
            intro he
            subst he
            rw [hg] at hn
            cases hn
          simp only [mapGet_mapUpdate, hne, if_false]
          exact hn
        · subst htp
          simp at ha

theorem pauseTimer_none (s : State) (id : Nat) (now : Int)
    (h : mapGet s.toasts id = none) : pauseTimer s id now = s := by
  simp [pauseTimer, h]

theorem pauseTimer_paused (s : State) (id : Nat) (now : Int) (toast : Toast)
    (h : mapGet s.toasts id = some toast) (hp : toast.isPaused = true) :
    pauseTimer s id now = s := by
  simp [pauseTimer, h, hp]

theorem pauseTimer_running (s : State) (id : Nat) (now : Int) (toast : Toast)
    (h : mapGet s.toasts id = some toast) (hp : toast.isPaused = false) :
    pauseTimer s id now =
      { toasts := mapUpdate s.toasts id (pausedRecord toast now),
        containers := s.containers,
        toastCounter := s.toastCounter,
        timerCounter := s.timerCounter,
        pending := (match toast.timer with
          | some h => s.pending.filter (fun t => t.handle ≠ h)
          | none => s.pending),
        cancelled := (match toast.timer with
          | some h => s.cancelled ++ [h]
          | none => s.cancelled) } := by
  simp only [pauseTimer, h, hp, pausedRecord]
  cases htm : toast.timer with
  | none => simp
  | some h0 => simp [clearTimeout]

theorem Inv_pauseTimer (s : State) (id : Nat) (now : Int) (hi : Inv s) :
    Inv (pauseTimer s id now) := by
  cases hg : mapGet s.toasts id with
  | none => rw [pauseTimer_none s id now hg]; exact hi
  | some toast =>
    cases hp : toast.isPaused with
    | true => rw [pauseTimer_paused s id now toast hg hp]; exact hi
    | false =>
      rw [pauseTimer_running s id now toast hg hp]
      apply Inv_set_idle s id toast _ _ _ hi hg rfl
      · intro t ht
        cases htm : toast.timer with
        | none => simpa [htm] using ht
        | some h0 =>
          simp only [htm, List.mem_filter] at ht
          exact ht.1
      · intro t ht h htm
        simp only [htm, List.mem_filter, decide_eq_true_eq] at ht
        exact ht.2

theorem resumeTimer_none (s : State) (id : Nat) (now : Int)
    (h : mapGet s.toasts id = none) : resumeTimer s id now = s := by
  simp [resumeTimer, h]

theorem resumeTimer_running (s : State) (id : Nat) (now : Int) (toast : Toast)
    (h : mapGet s.toasts id = some toast) (hp : toast.isPaused = false) :
    resumeTimer s id now = s := by
  simp [resumeTimer, h, hp]

theorem resumeTimer_paused (s : State) (id : Nat) (now : Int) (toast : Toast)
    (h : mapGet s.toasts id = some toast) (hp : toast.isPaused = true) :
    resumeTimer s id now =
      startTimer { s with toasts := mapUpdate s.toasts id (resumedRecord toast now) } id := by
  simp [resumeTimer, h, hp, resumedRecord]

theorem Inv_resumeTimer (s : State) (id : Nat) (now : Int) (hi : Inv s) :
    Inv (resumeTimer s id now) := by
  cases hg : mapGet s.toasts id with
  | none => rw [resumeTimer_none s id now hg]; exact hi
  | some toast =>
    cases hp : toast.isPaused with
    | false => rw [resumeTimer_running s id now toast hg hp]; exact hi
    | true =>
      rw [resumeTimer_paused s id now toast hg hp]
      have htn : toast.timer = none := hi.paused_no_timer id toast hg hp
      have h1 : Inv { s with toasts := mapUpdate s.toasts id (resumedRecord toast now) } := by
        have := Inv_set_idle s id toast (resumedRecord toast now)
          s.pending s.cancelled hi hg htn (fun t ht => ht)
          (fun t _ h htm => by rw [htn] at htm; cases htm)
        exact this
      apply Inv_startTimer _ id h1
      intro toast2 hg2
      simp only [mapGet_mapUpdate, hg, if_true, Option.map_some', Option.some.injEq] at hg2
      subst hg2
      exact ⟨htn, rfl⟩

/-- Registering a toast without a timer under an unused id keeps the invariant. -/
theorem Inv_insert (s : State) (id : Nat) (toast : Toast) (hi : Inv s)
    (hfresh : mapGet s.toasts id = none) (hle : id ≤ s.toastCounter)
    (ht : toast.timer = none)
    (hex : ∀ t ∈ s.pending, ∀ id1 position, t.action = Action.exit id1 position →
      id1 ≠ id) :
    Inv { s with toasts := mapSet s.toasts id toast } := by
  constructor
  · exact mapKeys_mapSet_nodup _ _ _ hi.keys_nodup
  · intro id1 t1 h1
    simp only [mapGet_mapSet] at h1
    by_cases he : id1 = id
    · rw [he]; exact hle
    · simp only [he, if_false] at h1
      exact hi.ids_le id1 t1 h1
  · intro id1 t1 h h1 htm
    simp only [mapGet_mapSet] at h1
    by_cases he : id1 = id
    · simp only [he, if_true, Option.some.injEq] at h1
      rw [← h1, ht] at htm
      cases htm
    · simp only [he, if_false] at h1
      exact hi.timer_le id1 t1 h h1 htm
  · intro t htp id1 ha
    obtain ⟨toast2, hg2, ht2⟩ := hi.owner t htp id1 ha
    have hne : id1 ≠ id := by
      intro he
      subst he
      rw [hfresh] at hg2
      cases hg2
    refine ⟨toast2, ?_, ht2⟩
    simp only [mapGet_mapSet, hne, if_false]
    exact hg2
  · intro id1 id2 t1 t2 h h1 h2 htm1 htm2
    simp only [mapGet_mapSet] at h1 h2
    by_cases he1 : id1 = id
    · simp only [he1, if_true, Option.some.injEq] at h1
      rw [← h1, ht] at htm1
      cases htm1
    · by_cases he2 : id2 = id
      · simp only [he2, if_true, Option.some.injEq] at h2
        rw [← h2, ht] at htm2
        cases htm2
      · simp only [he1, if_false] at h1
        simp only [he2, if_false] at h2
        exact hi.timer_inj id1 id2 t1 t2 h h1 h2 htm1 htm2
  · intro id1 t1 h1 hd
    simp only [mapGet_mapSet] at h1
    by_cases he : id1 = id
    · simp only [he, if_true, Option.some.injEq] at h1
      rw [← h1]; exact ht
    · simp only [he, if_false] at h1
      exact hi.no_timer id1 t1 h1 hd
  · intro id1 t1 h1 hd
    simp only [mapGet_mapSet] at h1
    by_cases he : id1 = id
    · simp only [he, if_true, Option.some.injEq] at h1
      rw [← h1]; exact ht
    · simp only [he, if_false] at h1
      exact hi.paused_no_timer id1 t1 h1 hd
  · intro t htp id1 pos ha
    obtain ⟨hn, hl⟩ := hi.exit_owner t htp id1 pos ha
    refine ⟨?_, hl⟩
    simp only [mapGet_mapSet, hex t htp id1 pos ha, if_false]
    exact hn

theorem enforceMaxToasts_cases (s : State) (position : String) :
    enforceMaxToasts s position = s ∨ ∃ id, enforceMaxToasts s position = dismiss s id := by
  unfold enforceMaxToasts
  cases containerGet s.containers position with
  | none => exact Or.inl rfl
  | some children =>
    by_cases hlen : children.length ≥ maxToasts
    · cases hh : children.head? with
      | none => simp [hlen, hh]
      | some oldest =>
        right
        exact ⟨oldest, by simp [hlen, hh]⟩
    · simp [hlen]

theorem Inv_enforceMaxToasts (s : State) (position : String) (hi : Inv s) :
    Inv (enforceMaxToasts s position) := by
  rcases enforceMaxToasts_cases s position with h | ⟨id, h⟩
  · rw [h]; exact hi
  · rw [h]; exact Inv_dismiss s id hi

theorem enforceMaxToasts_toastCounter (s : State) (position : String) :
    (enforceMaxToasts s position).toastCounter = s.toastCounter := by
  rcases enforceMaxToasts_cases s position with h | ⟨id, h⟩
  · rw [h]
  · rw [h, dismiss_toastCounter]

theorem enforceMaxToasts_mapGet (s : State) (position : String) (k : Nat) (t : Toast)
    (h : mapGet (enforceMaxToasts s position).toasts k = some t) :
    mapGet s.toasts k = some t := by
  rcases enforceMaxToasts_cases s position with he | ⟨id, he⟩
  · rw [he] at h; exact h
  · rw [he, dismiss_toasts] at h
    exact (mapGet_mapDelete_some _ _ _ _ h).2

theorem dismiss_pending_mem (s : State) (k : Nat) (t : Task)
    (ht : t ∈ (dismiss s k).pending) :
    t ∈ s.pending
    ∨ ∃ toast, mapGet s.toasts k = some toast
        ∧ t.action = Action.exit k toast.config.position := by
  cases hg : mapGet s.toasts k with
  | none => rw [dismiss_none s k hg] at ht; exact Or.inl ht
  | some toast =>
    rw [dismiss_some s k toast hg] at ht
    simp only [List.mem_append, List.mem_singleton] at ht
    rcases ht with ht | ht
    · left
      cases htm : toast.timer with
      | none => simpa [htm] using ht
      | some h0 =>
        simp only [htm, List.mem_filter] at ht
        exact ht.1
    · right
      exact ⟨toast, rfl, by rw [ht]⟩

theorem enforceMaxToasts_pending_mem (s : State) (position : String) (t : Task)
    (ht : t ∈ (enforceMaxToasts s position).pending) :
    t ∈ s.pending
    ∨ ∃ k toast, mapGet s.toasts k = some toast
        ∧ t.action = Action.exit k toast.config.position := by
  rcases enforceMaxToasts_cases s position with h | ⟨k, h⟩
  · rw [h] at ht; exact Or.inl ht
  · rw [h] at ht
    rcases dismiss_pending_mem s k t ht with h1 | ⟨toast, h1, h2⟩
    · exact Or.inl h1
    · exact Or.inr ⟨k, toast, h1, h2⟩

theorem getContainer_fields (s : State) (position : String) :
    (getContainer s position).toasts = s.toasts
    ∧ (getContainer s position).toastCounter = s.toastCounter
    ∧ (getContainer s position).timerCounter = s.timerCounter
    ∧ (getContainer s position).pending = s.pending
    ∧ (getContainer s position).cancelled = s.cancelled := by
  unfold getContainer
  cases containerGet s.containers position <;> simp

/-- The steps of `show` after validation, with the stored record named. -/
theorem showConfig_eq (s : State) (config : Config) (now : Int) :
    showConfig s config now =
      (let s3 := getContainer
          (enforceMaxToasts { s with toastCounter := s.toastCounter + 1 } config.position)
          config.position
       let s5 := appendChild
          { s3 with toasts := mapSet s3.toasts (s.toastCounter + 1) (newRecord config now) }
          config.position (s.toastCounter + 1)
       (if config.duration > 0 then startTimer s5 (s.toastCounter + 1) else s5,
        s.toastCounter + 1)) := by
  unfold showConfig newRecord
  by_cases hd : config.duration > 0 <;> simp [hd]

theorem showConfig_id (s : State) (config : Config) (now : Int) :
    (showConfig s config now).2 = s.toastCounter + 1 := by
  rw [showConfig_eq]

theorem Inv_showConfig (s : State) (config : Config) (now : Int) (hi : Inv s) :
    Inv (showConfig s config now).1 := by
  rw [showConfig_eq]
  have hi1 : Inv { s with toastCounter := s.toastCounter + 1 } := by
    constructor
    · exact hi.keys_nodup
    · intro id toast h
      have := hi.ids_le id toast h
      simp only
      omega
    · exact hi.timer_le
    · exact hi.owner
    · exact hi.timer_inj
    · exact hi.no_timer
    · exact hi.paused_no_timer
    · intro t ht id pos ha
      obtain ⟨hn, hl⟩ := hi.exit_owner t ht id pos ha
      refine ⟨hn, ?_⟩
      simp only
      omega
  have hi2 := Inv_enforceMaxToasts _ config.position hi1
  have hpend := enforceMaxToasts_pending_mem
    { s with toastCounter := s.toastCounter + 1 } config.position
  have hc2 := enforceMaxToasts_toastCounter
    { s with toastCounter := s.toastCounter + 1 } config.position
  have hsub := enforceMaxToasts_mapGet
    { s with toastCounter := s.toastCounter + 1 } config.position
  generalize enforceMaxToasts { s with toastCounter := s.toastCounter + 1 } config.position
    = s2 at hi2 hc2 hsub hpend
  obtain ⟨g1, g2, g3, g4, _⟩ := getContainer_fields s2 config.position
  have hi3 : Inv (getContainer s2 config.position) := Inv_congr s2 _ hi2 g1 g2 g3 g4
  generalize getContainer s2 config.position = s3 at hi3 g1 g2 g3 g4
  have hfresh : mapGet s3.toasts (s.toastCounter + 1) = none := by
    cases hg : mapGet s3.toasts (s.toastCounter + 1) with
    | none => rfl
    | some t =>
      rw [g1] at hg
      have := hi.ids_le _ t (hsub _ t hg)
      omega
  have hle : s.toastCounter + 1 ≤ s3.toastCounter := by
    rw [g2, hc2]
  have hex : ∀ t ∈ s3.pending, ∀ id1 position, t.action = Action.exit id1 position →
      id1 ≠ s.toastCounter + 1 := by
    intro t ht id1 pos ha
    rw [g4] at ht
    rcases hpend t ht with h1 | ⟨k, toast, h1, h2⟩
    · have := (hi.exit_owner t h1 id1 pos ha).2
      omega
    · rw [ha] at h2
      simp only [Action.exit.injEq] at h2
      have := hi.ids_le k toast h1
      omega
  have hi4 := Inv_insert s3 (s.toastCounter + 1) (newRecord config now) hi3 hfresh hle rfl
    hex
  have hi5 := Inv_congr _ (appendChild
    { s3 with toasts := mapSet s3.toasts (s.toastCounter + 1) (newRecord config now) }
    config.position (s.toastCounter + 1)) hi4 rfl rfl rfl rfl
  by_cases hd : config.duration > 0
  · simp only [hd, if_true]
    apply Inv_startTimer _ _ hi5
    intro toast hg
    simp only [appendChild, mapGet_mapSet, if_true, Option.some.injEq] at hg
    subst hg
    exact ⟨rfl, rfl⟩
  · simp only [hd, if_false]
    exact hi5

theorem showToast_valid (s : State) (o : Options) (text : String) (now : Int)
    (ht : o.text = some text) (hne : text ≠ "") :
    showToast s (some o) now
      = ((showConfig s (mkConfig o text) now).1, some (s.toastCounter + 1)) := by
  simp [showToast, ht, hne, showConfig_id]

/-- A `show` call either fails and changes nothing, or runs `showConfig`. -/
theorem showToast_cases (s : State) (options : Option Options) (now : Int) :
    showToast s options now = (s, none)
    ∨ ∃ config, showToast s options now
        = ((showConfig s config now).1, some (s.toastCounter + 1)) := by
  cases options with
  | none => exact Or.inl rfl
  | some o =>
    cases ht : o.text with
    | none => left; simp [showToast, ht]
    | some text =>
      by_cases hne : text = ""
      · left; simp [showToast, ht, hne]
      · right
        exact ⟨mkConfig o text, showToast_valid s o text now ht hne⟩

theorem Inv_showToast (s : State) (options : Option Options) (now : Int) (hi : Inv s) :
    Inv (showToast s options now).1 := by
  rcases showToast_cases s options now with h | ⟨config, h⟩
  · rw [h]; exact hi
  · rw [h]; exact Inv_showConfig s config now hi

theorem Inv_foldl_dismiss (ids : List Nat) (s : State) (hi : Inv s) :
    Inv (ids.foldl dismiss s) := by
  induction ids generalizing s with
  | nil => exact hi
  | cons id rest ih => exact ih (dismiss s id) (Inv_dismiss s id hi)

theorem Inv_clearAll (s : State) (hi : Inv s) : Inv (clearAll s) :=
  Inv_foldl_dismiss _ s hi

theorem exitCallback_fields (s : State) (id : Nat) (position : String) :
    (exitCallback s id position).toasts = s.toasts
    ∧ (exitCallback s id position).toastCounter = s.toastCounter
    ∧ (exitCallback s id position).timerCounter = s.timerCounter
    ∧ (exitCallback s id position).pending = s.pending
    ∧ (exitCallback s id position).cancelled = s.cancelled := by
  unfold exitCallback
  cases parentNode s id with
  | none =>
    simp only
    split
    · split <;> simp
    · simp
  | some p =>
    simp only
    split
    · split <;> simp [removeChild]
    · simp [removeChild]

theorem Inv_exitCallback (s : State) (id : Nat) (position : String) (hi : Inv s) :
    Inv (exitCallback s id position) := by
  obtain ⟨h1, h2, h3, h4, _⟩ := exitCallback_fields s id position
  exact Inv_congr s _ hi h1 h2 h3 h4

theorem Inv_fire (s : State) (h : Nat) (hi : Inv s) : Inv (fire s h) := by
  unfold fire
  cases s.pending.find? (fun t => decide (t.handle = h)) with
  | none => exact hi
  | some task =>
    have hi1 : Inv { s with pending := s.pending.filter (fun t => t.handle ≠ h) } := by
      constructor
      · exact hi.keys_nodup
      · exact hi.ids_le
      · exact hi.timer_le
      · intro t ht
        exact hi.owner t (List.mem_filter.mp ht).1
      · exact hi.timer_inj
      · exact hi.no_timer
      · exact hi.paused_no_timer
      · intro t ht
        exact hi.exit_owner t (List.mem_filter.mp ht).1
    cases hact : task.action with
    | dismiss id => simp only [hact]; exact Inv_dismiss _ id hi1
    | exit id position => simp only [hact]; exact Inv_exitCallback _ id position hi1

theorem Inv_step (s : State) (e : Event) (hi : Inv s) : Inv (step s e) := by
  match e with
  | Event.show options now => exact Inv_showToast s options now hi
  | Event.dismiss id => exact Inv_dismiss s id hi
  | Event.pauseTimer id now => exact Inv_pauseTimer s id now hi
  | Event.resumeTimer id now => exact Inv_resumeTimer s id now hi
  | Event.clearAll => exact Inv_clearAll s hi
  | Event.fire h => exact Inv_fire s h hi

theorem Inv_run (es : List Event) (s : State) (hi : Inv s) : Inv (run s es) := by
  induction es generalizing s with
  | nil => exact hi
  | cons e rest ih => exact ih (step s e) (Inv_step s e hi)

theorem run_append (s : State) (es1 es2 : List Event) :
    run s (es1 ++ es2) = run (run s es1) es2 := by
  simp [run, List.foldl_append]

/-! ## What each operation does to the record of one toast -/

theorem dismiss_mapGet (s : State) (k id : Nat) :
    mapGet (dismiss s k).toasts id = if id = k then none else mapGet s.toasts id := by
  rw [dismiss_toasts, mapGet_mapDelete]

theorem startTimer_mapGet_ne (s : State) (k id : Nat) (hne : id ≠ k) :
    mapGet (startTimer s k).toasts id = mapGet s.toasts id := by
  cases hg : mapGet s.toasts k with
  | none => rw [startTimer_none s k hg]
  | some toast =>
    by_cases hd : toast.config.duration ≤ 0
    · rw [startTimer_nonpos s k toast hg hd]
    · rw [startTimer_pos s k toast hg (not_le.mp hd)]
      simp [mapGet_mapUpdate, hne]

theorem pauseTimer_mapGet_ne (s : State) (k id : Nat) (now : Int) (hne : id ≠ k) :
    mapGet (pauseTimer s k now).toasts id = mapGet s.toasts id := by
  cases hg : mapGet s.toasts k with
  | none => rw [pauseTimer_none s k now hg]
  | some toast =>
    cases hp : toast.isPaused with
    | true => rw [pauseTimer_paused s k now toast hg hp]
    | false =>
      rw [pauseTimer_running s k now toast hg hp]
      simp [mapGet_mapUpdate, hne]

theorem resumeTimer_mapGet_ne (s : State) (k id : Nat) (now : Int) (hne : id ≠ k) :
    mapGet (resumeTimer s k now).toasts id = mapGet s.toasts id := by
  cases hg : mapGet s.toasts k with
  | none => rw [resumeTimer_none s k now hg]
  | some toast =>
    cases hp : toast.isPaused with
    | false => rw [resumeTimer_running s k now toast hg hp]
    | true =>
      rw [resumeTimer_paused s k now toast hg hp, startTimer_mapGet_ne _ k id hne]
      simp [mapGet_mapUpdate, hne]

/-- The record of a paused toast after `resumeTimer`. -/
theorem resumeTimer_mapGet_paused (s : State) (id : Nat) (now : Int) (toast : Toast)
    (hg : mapGet s.toasts id = some toast) (hp : toast.isPaused = true) :
    mapGet (resumeTimer s id now).toasts id
      = some (if toast.config.duration ≤ 0 then resumedRecord toast now
              else { resumedRecord toast now with timer := some (s.timerCounter + 1) }) := by
  rw [resumeTimer_paused s id now toast hg hp]
  have hg1 : mapGet ({ s with toasts := mapUpdate s.toasts id (resumedRecord toast now) }
      : State).toasts id = some (resumedRecord toast now) := by
    simp [mapGet_mapUpdate, hg]
  by_cases hd : toast.config.duration ≤ 0
  · rw [startTimer_nonpos _ id _ hg1 hd, hg1]
    simp [hd]
  · rw [startTimer_pos _ id _ hg1 (not_le.mp hd)]
    simp [mapGet_mapUpdate, hg, hd]

theorem appendChild_fields (s : State) (position : String) (id : Nat) :
    (appendChild s position id).toasts = s.toasts
    ∧ (appendChild s position id).toastCounter = s.toastCounter
    ∧ (appendChild s position id).timerCounter = s.timerCounter
    ∧ (appendChild s position id).pending = s.pending
    ∧ (appendChild s position id).cancelled = s.cancelled := by
  simp [appendChild]

/-- A `show` leaves the record of an older id as it was, or evicts it. -/
theorem showConfig_mapGet_old (s : State) (config : Config) (now : Int) (id : Nat)
    (hle : id ≤ s.toastCounter) :
    mapGet (showConfig s config now).1.toasts id = none
    ∨ mapGet (showConfig s config now).1.toasts id = mapGet s.toasts id := by
  rw [showConfig_eq]
  have hne : id ≠ s.toastCounter + 1 := by omega
  have key : mapGet (appendChild
      { getContainer
          (enforceMaxToasts { s with toastCounter := s.toastCounter + 1 } config.position)
          config.position with
        toasts := mapSet (getContainer
          (enforceMaxToasts { s with toastCounter := s.toastCounter + 1 } config.position)
          config.position).toasts (s.toastCounter + 1) (newRecord config now) }
      config.position (s.toastCounter + 1)).toasts id
      = mapGet (enforceMaxToasts { s with toastCounter := s.toastCounter + 1 }
          config.position).toasts id := by
    simp [appendChild, mapGet_mapSet, hne, (getContainer_fields _ _).1]
  have henf : mapGet (enforceMaxToasts { s with toastCounter := s.toastCounter + 1 }
      config.position).toasts id = none
    ∨ mapGet (enforceMaxToasts { s with toastCounter := s.toastCounter + 1 }
      config.position).toasts id = mapGet s.toasts id := by
    rcases enforceMaxToasts_cases { s with toastCounter := s.toastCounter + 1 }
      config.position with h | ⟨k, h⟩
    · rw [h]; exact Or.inr rfl
    · rw [h, dismiss_mapGet]
      by_cases hk : id = k
      · left; simp [hk]
      · right; simp [hk]
  by_cases hd : config.duration > 0
  · simp only [hd, if_true, startTimer_mapGet_ne _ _ id hne, key]
    exact henf
  · simp only [hd, if_false, key]
    exact henf

/-- The record of the toast a `show` just created. -/
theorem showConfig_mapGet_new (s : State) (config : Config) (now : Int) :
    mapGet (showConfig s config now).1.toasts (s.toastCounter + 1)
      = some (if config.duration > 0
          then { newRecord config now with
                 timer := some ((showConfig s config now).1.timerCounter) }
          else newRecord config now) := by
  rw [showConfig_eq]
  have hg : mapGet (appendChild
      { getContainer
          (enforceMaxToasts { s with toastCounter := s.toastCounter + 1 } config.position)
          config.position with
        toasts := mapSet (getContainer
          (enforceMaxToasts { s with toastCounter := s.toastCounter + 1 } config.position)
          config.position).toasts (s.toastCounter + 1) (newRecord config now) }
      config.position (s.toastCounter + 1)).toasts (s.toastCounter + 1)
      = some (newRecord config now) := by
    simp [appendChild, mapGet_mapSet]
  dsimp only at hg ⊢
  generalize appendChild _ config.position (s.toastCounter + 1) = s5 at hg ⊢
  by_cases hd : config.duration > 0
  · simp only [hd, if_true]
    rw [startTimer_pos s5 _ _ hg (by simpa [newRecord] using hd)]
    simp [mapGet_mapUpdate, hg, newRecord]
  · simp only [hd, if_false]
    exact hg

theorem startTimer_toastCounter (s : State) (k : Nat) :
    (startTimer s k).toastCounter = s.toastCounter := by
  cases hg : mapGet s.toasts k with
  | none => rw [startTimer_none s k hg]
  | some toast =>
    by_cases hd : toast.config.duration ≤ 0
    · rw [startTimer_nonpos s k toast hg hd]
    · rw [startTimer_pos s k toast hg (not_le.mp hd)]

theorem showConfig_toastCounter (s : State) (config : Config) (now : Int) :
    (showConfig s config now).1.toastCounter = s.toastCounter + 1 := by
  rw [showConfig_eq]
  by_cases hd : config.duration > 0
  · simp only [hd, if_true, startTimer_toastCounter, (appendChild_fields _ _ _).2.1,
      (getContainer_fields _ _).2.1, enforceMaxToasts_toastCounter]
  · simp only [hd, if_false, (appendChild_fields _ _ _).2.1,
      (getContainer_fields _ _).2.1, enforceMaxToasts_toastCounter]

theorem pauseTimer_toastCounter (s : State) (k : Nat) (now : Int) :
    (pauseTimer s k now).toastCounter = s.toastCounter := by
  cases hg : mapGet s.toasts k with
  | none => rw [pauseTimer_none s k now hg]
  | some toast =>
    cases hp : toast.isPaused with
    | true => rw [pauseTimer_paused s k now toast hg hp]
    | false => rw [pauseTimer_running s k now toast hg hp]

theorem resumeTimer_toastCounter (s : State) (k : Nat) (now : Int) :
    (resumeTimer s k now).toastCounter = s.toastCounter := by
  cases hg : mapGet s.toasts k with
  | none => rw [resumeTimer_none s k now hg]
  | some toast =>
    cases hp : toast.isPaused with
    | false => rw [resumeTimer_running s k now toast hg hp]
    | true => rw [resumeTimer_paused s k now toast hg hp, startTimer_toastCounter]

theorem foldl_dismiss_toastCounter (ids : List Nat) (s : State) :
    (ids.foldl dismiss s).toastCounter = s.toastCounter := by
  induction ids generalizing s with
  | nil => rfl
  | cons id rest ih =>
    simp only [List.foldl_cons]
    rw [ih, dismiss_toastCounter]

theorem foldl_dismiss_mapGet (ids : List Nat) (s : State) (id : Nat) :
    mapGet (ids.foldl dismiss s).toasts id = none
    ∨ mapGet (ids.foldl dismiss s).toasts id = mapGet s.toasts id := by
  induction ids generalizing s with
  | nil => exact Or.inr rfl
  | cons k rest ih =>
    simp only [List.foldl_cons]
    rcases ih (dismiss s k) with h | h
    · exact Or.inl h
    · rw [h, dismiss_mapGet]
      by_cases hk : id = k
      · left; simp [hk]
      · right; simp [hk]

theorem fire_toastCounter (s : State) (h : Nat) :
    (fire s h).toastCounter = s.toastCounter := by
  unfold fire
  cases s.pending.find? (fun t => decide (t.handle = h)) with
  | none => rfl
  | some task =>
    cases hact : task.action with
    | dismiss id => simp only [hact, dismiss_toastCounter]
    | exit id position => simp only [hact, (exitCallback_fields _ _ _).2.1]

theorem fire_mapGet (s : State) (h id : Nat) :
    mapGet (fire s h).toasts id = none
    ∨ mapGet (fire s h).toasts id = mapGet s.toasts id := by
  unfold fire
  cases s.pending.find? (fun t => decide (t.handle = h)) with
  | none => exact Or.inr rfl
  | some task =>
    cases hact : task.action with
    | dismiss k =>
      simp only [hact, dismiss_mapGet]
      by_cases hk : id = k
      · left; simp [hk]
      · right; simp [hk]
    | exit k position =>
      right
      simp only [hact, (exitCallback_fields _ _ _).1]

theorem showToast_toastCounter_le (s : State) (options : Option Options) (now : Int) :
    s.toastCounter ≤ (showToast s options now).1.toastCounter := by
  rcases showToast_cases s options now with h | ⟨config, h⟩
  · rw [h]
  · rw [h, showConfig_toastCounter]
    omega

theorem step_toastCounter_le (s : State) (e : Event) :
    s.toastCounter ≤ (step s e).toastCounter := by
  match e with
  | Event.show options now => exact showToast_toastCounter_le s options now
  | Event.dismiss id => exact le_of_eq (dismiss_toastCounter s id).symm
  | Event.pauseTimer id now => exact le_of_eq (pauseTimer_toastCounter s id now).symm
  | Event.resumeTimer id now => exact le_of_eq (resumeTimer_toastCounter s id now).symm
  | Event.clearAll => exact le_of_eq (foldl_dismiss_toastCounter _ s).symm
  | Event.fire h => exact le_of_eq (fire_toastCounter s h).symm

theorem run_toastCounter_le (es : List Event) (s : State) :
    s.toastCounter ≤ (run s es).toastCounter := by
  induction es generalizing s with
  | nil => exact le_refl _
  | cons e rest ih => exact le_trans (step_toastCounter_le s e) (ih (step s e))

/-- Unless the event is the `pauseTimer` or `resumeTimer` call that applies to the
toast (a pause of a running toast, a resume of a paused one), one event leaves the
record of an id that was already handed out as it was, or removes it. -/
theorem step_frame (s : State) (e : Event) (id : Nat) (hle : id ≤ s.toastCounter)
    (hp : ∀ now, e = Event.pauseTimer id now →
      (mapGet s.toasts id).map Toast.isPaused ≠ some false)
    (hr : ∀ now, e = Event.resumeTimer id now →
      (mapGet s.toasts id).map Toast.isPaused ≠ some true) :
    mapGet (step s e).toasts id = none
    ∨ mapGet (step s e).toasts id = mapGet s.toasts id := by
  match e with
  | Event.show options now =>
    rcases showToast_cases s options now with h | ⟨config, h⟩
    · right; simp only [step, h]
    · simp only [step, h]; exact showConfig_mapGet_old s config now id hle
  | Event.dismiss k =>
    simp only [step, dismiss_mapGet]
    by_cases hk : id = k
    · left; simp [hk]
    · right; simp [hk]
  | Event.pauseTimer k now =>
    right
    simp only [step]
    by_cases hk : id = k
    · subst hk
      have h1 := hp now rfl
      cases hg : mapGet s.toasts id with
      | none => rw [pauseTimer_none s id now hg, hg]
      | some toast =>
        cases hpz : toast.isPaused with
        | true => rw [pauseTimer_paused s id now toast hg hpz, hg]
        | false => simp [hg, hpz] at h1
    · exact pauseTimer_mapGet_ne s k id now hk
  | Event.resumeTimer k now =>
    right
    simp only [step]
    by_cases hk : id = k
    · subst hk
      have h1 := hr now rfl
      cases hg : mapGet s.toasts id with
      | none => rw [resumeTimer_none s id now hg, hg]
      | some toast =>
        cases hpz : toast.isPaused with
        | false => rw [resumeTimer_running s id now toast hg hpz, hg]
        | true => simp [hg, hpz] at h1
    · exact resumeTimer_mapGet_ne s k id now hk
  | Event.clearAll => exact foldl_dismiss_mapGet _ s id
  | Event.fire h => exact fire_mapGet s h id

theorem run_frame (es : List Event) (s : State) (id : Nat) (r : Toast)
    (hle : id ≤ s.toastCounter)
    (hs : mapGet s.toasts id = none ∨ mapGet s.toasts id = some r)
    (hp : r.isPaused = false → ∀ e ∈ es, ∀ now, e ≠ Event.pauseTimer id now)
    (hr : r.isPaused = true → ∀ e ∈ es, ∀ now, e ≠ Event.resumeTimer id now) :
    mapGet (run s es).toasts id = none ∨ mapGet (run s es).toasts id = some r := by
  induction es generalizing s with
  | nil => exact hs
  | cons e rest ih =>
    have hstep := step_frame s e id hle
      (by
        intro now he
        rcases hs with h | h
        · simp [h]
        · rw [h]
          simp only [Option.map_some', ne_eq, Option.some.injEq]
          intro hpf
          exact hp hpf e (List.mem_cons_self _ _) now he)
      (by
        intro now he
        rcases hs with h | h
        · simp [h]
        · rw [h]
          simp only [Option.map_some', ne_eq, Option.some.injEq]
          intro hpt
          exact hr hpt e (List.mem_cons_self _ _) now he)
    apply ih (step s e) (le_trans hle (step_toastCounter_le s e))
    · rcases hstep with h | h
      · exact Or.inl h
      · rw [h]; exact hs
    · intro hpf e1 he1
      exact hp hpf e1 (List.mem_cons_of_mem _ he1)
    · intro hpt e1 he1
      exact hr hpt e1 (List.mem_cons_of_mem _ he1)

/-- A successful `show` ran `showConfig` on the merged configuration and returned
the incremented counter. -/
theorem showToast_success (s s1 : State) (options : Option Options) (now : Int) (id : Nat)
    (h : showToast s options now = (s1, some id)) :
    ∃ o text, options = some o ∧ o.text = some text ∧ text ≠ ""
      ∧ s1 = (showConfig s (mkConfig o text) now).1 ∧ id = s.toastCounter + 1 := by
  cases options with
  | none => simp [showToast] at h
  | some o =>
    cases ht : o.text with
    | none => simp [showToast, ht] at h
    | some text =>
      by_cases hne : text = ""
      · simp [showToast, ht, hne] at h
      · rw [showToast_valid s o text now ht hne] at h
        simp only [Prod.mk.injEq, Option.some.injEq] at h
        exact ⟨o, text, rfl, ht, hne, h.1.symm, h.2.symm⟩

/-! ## Returned ids -/

theorem shownIds_gt (es : List Event) (s : State) :
    ∀ j ∈ shownIds s es, s.toastCounter < j := by
  induction es generalizing s with
  | nil => intro j hj; simp [shownIds] at hj
  | cons e rest ih =>
    intro j hj
    match e with
    | Event.show options now =>
      rcases showToast_cases s options now with h | ⟨config, h⟩
      · simp only [shownIds, h] at hj
        exact ih s j hj
      · simp only [shownIds, h, List.mem_cons] at hj
        rcases hj with hj | hj
        · omega
        · have := ih _ j hj
          rw [showConfig_toastCounter] at this
          omega
    | Event.dismiss id =>
      simp only [shownIds] at hj
      exact lt_of_le_of_lt (step_toastCounter_le s _) (ih _ j hj)
    | Event.pauseTimer id now =>
      simp only [shownIds] at hj
      exact lt_of_le_of_lt (step_toastCounter_le s _) (ih _ j hj)
    | Event.resumeTimer id now =>
      simp only [shownIds] at hj
      exact lt_of_le_of_lt (step_toastCounter_le s _) (ih _ j hj)
    | Event.clearAll =>
      simp only [shownIds] at hj
      exact lt_of_le_of_lt (step_toastCounter_le s _) (ih _ j hj)
    | Event.fire h =>
      simp only [shownIds] at hj
      exact lt_of_le_of_lt (step_toastCounter_le s _) (ih _ j hj)

theorem shownIds_le (es : List Event) (s : State) :
    ∀ j ∈ shownIds s es, j ≤ (run s es).toastCounter := by
  induction es generalizing s with
  | nil => intro j hj; simp [shownIds] at hj
  | cons e rest ih =>
    intro j hj
    match e with
    | Event.show options now =>
      rcases showToast_cases s options now with h | ⟨config, h⟩
      · simp only [shownIds, h] at hj
        have := ih s j hj
        simpa [run, step, h] using this
      · simp only [shownIds, h, List.mem_cons] at hj
        rcases hj with hj | hj
        · have := run_toastCounter_le rest (showConfig s config now).1
          rw [showConfig_toastCounter] at this
          simp only [run, List.foldl_cons, step, h]
          simp only [run] at this
          omega
        · have := ih _ j hj
          simpa [run, step, h] using this
    | Event.dismiss id =>
      simp only [shownIds] at hj
      exact ih _ j hj
    | Event.pauseTimer id now =>
      simp only [shownIds] at hj
      exact ih _ j hj
    | Event.resumeTimer id now =>
      simp only [shownIds] at hj
      exact ih _ j hj
    | Event.clearAll =>
      simp only [shownIds] at hj
      exact ih _ j hj
    | Event.fire h =>
      simp only [shownIds] at hj
      exact ih _ j hj

theorem shownIds_pairwise (es : List Event) (s : State) :
    (shownIds s es).Pairwise (fun a b => a < b) := by
  induction es generalizing s with
  | nil => simp [shownIds]
  | cons e rest ih =>
    match e with
    | Event.show options now =>
      rcases showToast_cases s options now with h | ⟨config, h⟩
      · simp only [shownIds, h]
        exact ih s
      · simp only [shownIds, h, List.pairwise_cons]
        refine ⟨?_, ih _⟩
        intro j hj
        have := shownIds_gt rest _ j hj
        rw [showConfig_toastCounter] at this
        exact this
    | Event.dismiss id => simp only [shownIds]; exact ih _
    | Event.pauseTimer id now => simp only [shownIds]; exact ih _
    | Event.resumeTimer id now => simp only [shownIds]; exact ih _
    | Event.clearAll => simp only [shownIds]; exact ih _
    | Event.fire h => simp only [shownIds]; exact ih _

/-! ## `clearAll` -/

theorem dismiss_head (s : State) (k : Nat) (v : Toast) (rest : List (Nat × Toast))
    (hs : s.toasts = (k, v) :: rest) (hnd : (mapKeys ((k, v) :: rest)).Nodup) :
    (dismiss s k).toasts = rest
    ∧ (dismiss s k).cancelled = s.cancelled ++ (match v.timer with
        | some h => [h]
        | none => []) := by
  have hg : mapGet s.toasts k = some v := by simp [hs, mapGet]
  rw [dismiss_some s k v hg]
  simp only [mapKeys, List.map_cons, List.nodup_cons] at hnd
  constructor
  · simp only [hs, mapDelete, if_true]
    exact mapDelete_of_not_mem rest k hnd.1
  · cases v.timer <;> simp

theorem foldl_dismiss_all (l : List (Nat × Toast)) (s : State) (hs : s.toasts = l)
    (hnd : (mapKeys l).Nodup) :
    ((mapKeys l).foldl dismiss s).toasts = []
    ∧ ((mapKeys l).foldl dismiss s).cancelled
        = s.cancelled ++ l.filterMap (fun p => p.2.timer) := by
  induction l generalizing s with
  | nil => simp [mapKeys, hs]
  | cons p rest ih =>
    obtain ⟨k, v⟩ := p
    obtain ⟨h1, h2⟩ := dismiss_head s k v rest hs hnd
    have hnd1 : (mapKeys rest).Nodup := by
      simp only [mapKeys, List.map_cons, List.nodup_cons] at hnd
      exact hnd.2
    obtain ⟨g1, g2⟩ := ih (dismiss s k) h1 hnd1
    simp only [mapKeys, List.map_cons, List.foldl_cons]
    simp only [mapKeys] at g1 g2
    refine ⟨g1, ?_⟩
    rw [g2, h2]
    cases hv : v.timer with
    | none => simp [List.filterMap_cons, hv]
    | some h => simp [List.filterMap_cons, hv]

theorem timers_nodup (l : List (Nat × Toast)) (hnd : (mapKeys l).Nodup)
    (hinj : ∀ id1 id2 t1 t2 h, mapGet l id1 = some t1 → mapGet l id2 = some t2 →
      t1.timer = some h → t2.timer = some h → id1 = id2) :
    (l.filterMap (fun p => p.2.timer)).Nodup := by
  induction l with
  | nil => simp
  | cons p rest ih =>
    obtain ⟨k, v⟩ := p
    have hnd0 := hnd
    simp only [mapKeys, List.map_cons, List.nodup_cons] at hnd
    have hrest : (rest.filterMap (fun p => p.2.timer)).Nodup := by
      apply ih hnd.2
      intro id1 id2 t1 t2 h h1 h2 e1 e2
      apply hinj id1 id2 t1 t2 h _ _ e1 e2
      · exact mem_mapGet _ _ _ hnd0 (List.mem_cons_of_mem _ (mapGet_mem _ _ _ h1))
      · exact mem_mapGet _ _ _ hnd0 (List.mem_cons_of_mem _ (mapGet_mem _ _ _ h2))
    cases hv : v.timer with
    | none => simpa [List.filterMap_cons, hv] using hrest
    | some h =>
      simp only [List.filterMap_cons, hv, List.nodup_cons]
      refine ⟨?_, hrest⟩
      intro hmem
      obtain ⟨q, hq, hqt⟩ := List.mem_filterMap.mp hmem
      have h1 : mapGet ((k, v) :: rest) k = some v := by simp [mapGet]
      have h2 : mapGet ((k, v) :: rest) q.1 = some q.2 :=
        mem_mapGet _ _ _ hnd0 (List.mem_cons_of_mem _ hq)
      have hk := hinj k q.1 v q.2 h h1 h2 hv hqt
      apply hnd.1
      rw [hk]
      exact List.mem_map_of_mem Prod.fst hq

/-! ## Configuration and registration of one toast along a session -/

theorem step_config (s : State) (e : Event) (id : Nat) (c : Config)
    (hle : id ≤ s.toastCounter)
    (h : ∀ t, mapGet s.toasts id = some t → t.config = c) :
    ∀ t, mapGet (step s e).toasts id = some t → t.config = c := by
  intro t ht
  have frame : (mapGet (step s e).toasts id = none
      ∨ mapGet (step s e).toasts id = mapGet s.toasts id) → t.config = c := by
    intro hf
    rcases hf with hf | hf
    · rw [hf] at ht; cases ht
    · rw [hf] at ht; exact h t ht
  match e with
  | Event.show options now =>
    exact frame (step_frame s _ id hle (fun _ he => by cases he) (fun _ he => by cases he))
  | Event.dismiss k =>
    exact frame (step_frame s _ id hle (fun _ he => by cases he) (fun _ he => by cases he))
  | Event.clearAll =>
    exact frame (step_frame s _ id hle (fun _ he => by cases he) (fun _ he => by cases he))
  | Event.fire k =>
    exact frame (step_frame s _ id hle (fun _ he => by cases he) (fun _ he => by cases he))
  | Event.pauseTimer k now =>
    simp only [step] at ht
    by_cases hk : id = k
    · subst hk
      cases hg : mapGet s.toasts id with
      | none => rw [pauseTimer_none s id now hg, hg] at ht; cases ht
      | some toast =>
        cases hpz : toast.isPaused with
        | true =>
          rw [pauseTimer_paused s id now toast hg hpz] at ht
          exact h t ht
        | false =>
          rw [pauseTimer_running s id now toast hg hpz] at ht
          simp only [mapGet_mapUpdate, if_true, hg, Option.map_some', Option.some.injEq] at ht
          rw [← ht]
          exact h toast hg
    · rw [pauseTimer_mapGet_ne s k id now hk] at ht
      exact h t ht
  | Event.resumeTimer k now =>
    simp only [step] at ht
    by_cases hk : id = k
    · subst hk
      cases hg : mapGet s.toasts id with
      | none => rw [resumeTimer_none s id now hg, hg] at ht; cases ht
      | some toast =>
        cases hpz : toast.isPaused with
        | false =>
          rw [resumeTimer_running s id now toast hg hpz] at ht
          exact h t ht
        | true =>
          rw [resumeTimer_mapGet_paused s id now toast hg hpz] at ht
          simp only [Option.some.injEq] at ht
          rw [← ht]
          have := h toast hg
          split <;> simpa [resumedRecord] using this
    · rw [resumeTimer_mapGet_ne s k id now hk] at ht
      exact h t ht

theorem run_config (es : List Event) (s : State) (id : Nat) (c : Config)
    (hle : id ≤ s.toastCounter)
    (h : ∀ t, mapGet s.toasts id = some t → t.config = c) :
    ∀ t, mapGet (run s es).toasts id = some t → t.config = c := by
  induction es generalizing s with
  | nil => exact h
  | cons e rest ih =>
    exact ih (step s e) (le_trans hle (step_toastCounter_le s e))
      (step_config s e id c hle h)

/-- A registered toast without a timer stays registered through every event that
is not a removal on request. -/
theorem step_keeps_idle (s : State) (e : Event) (id : Nat) (toast : Toast) (hi : Inv s)
    (hg : mapGet s.toasts id = some toast) (htm : toast.timer = none)
    (hev : isRemoval id e = false) : mapGet (step s e).toasts id ≠ none := by
  match e with
  | Event.show options now => simp [isRemoval] at hev
  | Event.clearAll => simp [isRemoval] at hev
  | Event.dismiss k =>
    simp only [isRemoval, beq_eq_false_iff_ne, ne_eq] at hev
    have hk : ¬ id = k := fun h => hev h.symm
    simp [step, dismiss_mapGet, hk, hg]
  | Event.pauseTimer k now =>
    simp only [step]
    by_cases hk : id = k
    · subst hk
      cases hpz : toast.isPaused with
      | true => rw [pauseTimer_paused s id now toast hg hpz, hg]; simp
      | false =>
        rw [pauseTimer_running s id now toast hg hpz]
        simp [mapGet_mapUpdate, hg]
    · rw [pauseTimer_mapGet_ne s k id now hk, hg]; simp
  | Event.resumeTimer k now =>
    simp only [step]
    by_cases hk : id = k
    · subst hk
      cases hpz : toast.isPaused with
      | false => rw [resumeTimer_running s id now toast hg hpz, hg]; simp
      | true => rw [resumeTimer_mapGet_paused s id now toast hg hpz]; simp
    · rw [resumeTimer_mapGet_ne s k id now hk, hg]; simp
  | Event.fire h =>
    simp only [step, fire]
    cases hf : s.pending.find? (fun t => decide (t.handle = h)) with
    | none => simp [hg]
    | some task =>
      have hmem : task ∈ s.pending := List.mem_of_find?_eq_some hf
      cases hact : task.action with
      | dismiss k =>
        simp only [hact, dismiss_mapGet]
        have hk : ¬ id = k := by
          intro he
          subst he
          obtain ⟨toast1, hg1, ht1⟩ := hi.owner task hmem id hact
          rw [hg] at hg1
          cases hg1
          rw [htm] at ht1
          cases ht1
        simp [hk, hg]
      | exit k position =>
        simp only [hact, (exitCallback_fields _ _ _).1]
        simp [hg]

theorem run_keeps_idle (es : List Event) (s : State) (id : Nat) (hi : Inv s)
    (hle : id ≤ s.toastCounter)
    (hreg : ∃ toast, mapGet s.toasts id = some toast ∧ toast.config.duration ≤ 0)
    (hev : ∀ e ∈ es, isRemoval id e = false) : mapGet (run s es).toasts id ≠ none := by
  induction es generalizing s with
  | nil =>
    obtain ⟨toast, hg, _⟩ := hreg
    simp [run, hg]
  | cons e rest ih =>
    obtain ⟨toast, hg, hd⟩ := hreg
    have hkeep := step_keeps_idle s e id toast hi hg (hi.no_timer id toast hg hd)
      (hev e (List.mem_cons_self _ _))
    apply ih (step s e) (Inv_step s e hi) (le_trans hle (step_toastCounter_le s e))
    · cases hg1 : mapGet (step s e).toasts id with
      | none => exact absurd hg1 hkeep
      | some toast1 =>
        refine ⟨toast1, rfl, ?_⟩
        have := step_config s e id toast.config hle
          (fun t ht => by rw [hg] at ht; cases ht; rfl) toast1 hg1
        rw [this]; exact hd
    · intro e1 he1
      exact hev e1 (List.mem_cons_of_mem _ he1)

theorem resumeTimer_pending_paused (s : State) (id : Nat) (now : Int) (toast : Toast)
    (hg : mapGet s.toasts id = some toast) (hp : toast.isPaused = true)
    (hd : 0 < toast.config.duration) :
    (resumeTimer s id now).pending
      = s.pending ++ [⟨s.timerCounter + 1, toast.remainingTime, Action.dismiss id⟩] := by
  rw [resumeTimer_paused s id now toast hg hp]
  have hg1 : mapGet ({ s with toasts := mapUpdate s.toasts id (resumedRecord toast now) }
      : State).toasts id = some (resumedRecord toast now) := by
    simp [mapGet_mapUpdate, hg]
  rw [startTimer_pos _ id _ hg1 (by simpa [resumedRecord] using hd)]
  simp [resumedRecord]

/-! ## Pending dismissals -/

theorem dismissalsOf_unregistered (s : State) (id : Nat) (hi : Inv s)
    (h : mapGet s.toasts id = none) : dismissalsOf s id = [] := by
  unfold dismissalsOf
  rw [List.filter_eq_nil_iff]
  intro t ht ha
  simp only [decide_eq_true_eq] at ha
  obtain ⟨toast, hg, _⟩ := hi.owner t ht id ha
  rw [h] at hg
  cases hg

theorem dismissalsOf_idle (s : State) (id : Nat) (toast : Toast) (hi : Inv s)
    (h : mapGet s.toasts id = some toast) (htm : toast.timer = none) :
    dismissalsOf s id = [] := by
  unfold dismissalsOf
  rw [List.filter_eq_nil_iff]
  intro t ht ha
  simp only [decide_eq_true_eq] at ha
  obtain ⟨toast1, hg, ht1⟩ := hi.owner t ht id ha
  rw [h] at hg
  cases hg
  rw [htm] at ht1
  cases ht1

/-- No pending callback of any kind acts on a registered toast without a timer. -/
theorem no_task_targets_idle (s : State) (id : Nat) (toast : Toast) (hi : Inv s)
    (h : mapGet s.toasts id = some toast) (htm : toast.timer = none) :
    ∀ t ∈ s.pending, t.action.target ≠ id := by
  intro t ht htar
  cases hact : t.action with
  | dismiss k =>
    rw [hact] at htar
    simp only [Action.target] at htar
    subst htar
    obtain ⟨toast1, hg, ht1⟩ := hi.owner t ht k hact
    rw [h] at hg
    cases hg
    rw [htm] at ht1
    cases ht1
  | exit k pos =>
    rw [hact] at htar
    simp only [Action.target] at htar
    subst htar
    have := (hi.exit_owner t ht k pos hact).1
    rw [h] at this
    cases this

/-! ## The claims -/

/-- C1: a `show` call whose `options` is missing, or whose `options.text` is missing
or the empty string, returns `null` and leaves the whole state as it was: registry,
containers, id counter, and the timer service (nothing scheduled, nothing cancelled). -/
theorem show_invalid_rejected (s : State) (options : Option Options) (now : Int)
    (h : options = none ∨ ∃ o, options = some o ∧ (o.text = none ∨ o.text = some "")) :
    showToast s options now = (s, none) := by
  rcases h with h | ⟨o, ho, h | h⟩
  · subst h; rfl
  · subst ho; simp [showToast, h]
  · subst ho; simp [showToast, h]

theorem show_invalid_rejected_witness :
    showToast (run init [Event.show (request "a" 3000) 0])
      (some { text := some "", duration := some 10 }) 5
      = (run init [Event.show (request "a" 3000) 0], none) :=
  show_invalid_rejected _ _ 5 (Or.inr ⟨_, rfl, Or.inr rfl⟩)

/-- C2, evaluated: seven `show` calls for the default zone, made before any exit
animation callback ran, leave six toasts of that zone in the registry, one more than
`maxToasts`: the sixth call evicts toast 1, whose element stays in the container
until the callback runs, and the seventh call picks that element again, so its
`dismiss` finds nothing to remove. -/
theorem seven_shows_exceed_maxToasts :
    zoneCount (run init (List.replicate 7 (Event.show (request "a" 3000) 0))) "top-right" = 6
    ∧ mapKeys (run init (List.replicate 7 (Event.show (request "a" 3000) 0))).toasts
        = [2, 3, 4, 5, 6, 7]
    ∧ (run init (List.replicate 7 (Event.show (request "a" 3000) 0))).containers
        = [("top-right", [1, 2, 3, 4, 5, 6, 7])]
    ∧ maxToasts = 5 := by
  decide

/-- C3, evaluated: after six `show` calls the default zone holds five registered
toasts (ids 2 to 6) and the element of the evicted toast 1 is still first in the
container; a further valid `show` for that zone removes no registered toast: the
oldest one, id 2, is still registered next to the new toast 7. -/
theorem show_at_capacity_evicts_nothing :
    zoneCount (run init (List.replicate 6 (Event.show (request "a" 3000) 0))) "top-right" = 5
    ∧ mapKeys (run init (List.replicate 6 (Event.show (request "a" 3000) 0))).toasts
        = [2, 3, 4, 5, 6]
    ∧ mapKeys (showToast (run init (List.replicate 6 (Event.show (request "a" 3000) 0)))
        (request "b" 3000) 100).1.toasts = [2, 3, 4, 5, 6, 7] := by
  decide

/-- C4, evaluated: a toast of duration 3000 created at 0, paused at 1000 (remaining
2000), resumed at 6000 (timer scheduled with delay 2000) and paused again 500 ms
later has `remainingTime` 2500, computed from the full duration, not 2000 - 500. -/
theorem second_pause_restarts_from_duration :
    (mapGet (run init [Event.show (request "a" 3000) 0, Event.pauseTimer 1 1000,
        Event.resumeTimer 1 6000]).toasts 1).map Toast.remainingTime = some 2000
    ∧ (dismissalsOf (run init [Event.show (request "a" 3000) 0, Event.pauseTimer 1 1000,
        Event.resumeTimer 1 6000]) 1).map Task.delay = [2000]
    ∧ (mapGet (run init [Event.show (request "a" 3000) 0, Event.pauseTimer 1 1000,
        Event.resumeTimer 1 6000, Event.pauseTimer 1 6500]).toasts 1).map Toast.remainingTime
        = some 2500 := by
  decide

/-- C5: a toast created with duration `d > 0` at time `t0` and not paused before
(no `pauseTimer` on it among the events `es2` since its creation) is, by a
`pauseTimer` at `t0 + e` with `e ≤ d` (in particular `0 ≤ e ≤ d`), marked paused with
`remainingTime = d - e` and no timer: `clearTimeout` is called on its handle and no dismissal of it stays
pending. A `resumeTimer` at any time `t1`, whatever happened in between (`es3`, no
resume of it), marks it not paused, sets `startTime = t1` and leaves exactly one
pending dismissal of it, with delay `d - e`. -/
theorem first_pause_then_resume (es es2 es3 : List Event) (o : Options) (id : Nat)
    (d t0 e t1 : Int) (s1 s2 s3 s4 s5 : State)
    (hshow : showToast (run init es) (some o) t0 = (s1, some id))
    (hdur : o.duration.getD defaultDuration = d) (hd : 0 < d)
    (hs2 : s2 = run s1 es2)
    (hes2 : ∀ ev ∈ es2, ∀ now, ev ≠ Event.pauseTimer id now)
    (hreg2 : mapGet s2.toasts id ≠ none)
    (he : e ≤ d)
    (hs3 : s3 = pauseTimer s2 id (t0 + e))
    (hs4 : s4 = run s3 es3)
    (hes3 : ∀ ev ∈ es3, ∀ now, ev ≠ Event.resumeTimer id now)
    (hreg4 : mapGet s4.toasts id ≠ none)
    (hs5 : s5 = resumeTimer s4 id t1) :
    ((mapGet s3.toasts id).map Toast.isPaused = some true
      ∧ (mapGet s3.toasts id).map Toast.remainingTime = some (d - e)
      ∧ (mapGet s3.toasts id).map Toast.timer = some none
      ∧ (mapGet s2.toasts id).map Toast.timer = some (some s1.timerCounter)
      ∧ s3.cancelled = s2.cancelled ++ [s1.timerCounter]
      ∧ dismissalsOf s3 id = [])
    ∧ ((mapGet s5.toasts id).map Toast.isPaused = some false
      ∧ (mapGet s5.toasts id).map Toast.startTime = some t1
      ∧ (mapGet s5.toasts id).map Toast.timer = some (some (s4.timerCounter + 1))
      ∧ dismissalsOf s5 id = [⟨s4.timerCounter + 1, d - e, Action.dismiss id⟩]) := by
  obtain ⟨o1, text, ho, htext, hne, hs1, hid⟩ := showToast_success _ _ _ _ _ hshow
  cases ho
  have hi0 : Inv (run init es) := Inv_run es init Inv_init
  have hcd : (mkConfig o text).duration = d := by simpa [mkConfig] using hdur
  have hi1 : Inv s1 := by rw [hs1]; exact Inv_showConfig _ _ _ hi0
  have hg1 : mapGet s1.toasts id
      = some ⟨mkConfig o text, some s1.timerCounter, t0, d, false⟩ := by
    rw [hid, hs1, showConfig_mapGet_new]
    simp [hcd, hd, newRecord]
  have hle1 : id ≤ s1.toastCounter := by
    rw [hs1, showConfig_toastCounter, hid]
  have hg2 : mapGet s2.toasts id
      = some ⟨mkConfig o text, some s1.timerCounter, t0, d, false⟩ := by
    rcases run_frame es2 s1 id _ hle1 (Or.inr hg1) (fun _ => hes2)
      (fun h => by simp at h) with h | h
    · rw [← hs2] at h; exact absurd h hreg2
    · rw [← hs2] at h; exact h
  have hi2 : Inv s2 := by rw [hs2]; exact Inv_run es2 s1 hi1
  have hle2 : id ≤ s2.toastCounter := by
    rw [hs2]; exact le_trans hle1 (run_toastCounter_le es2 s1)
  have hrem : max 0 (d - (t0 + e - t0)) = d - e := by
    have h1 : t0 + e - t0 = e := by ring
    rw [h1]
    exact max_eq_right (by omega)
  have hs3b := hs3
  rw [pauseTimer_running s2 id (t0 + e) _ hg2 rfl] at hs3b
  have hg3 : mapGet s3.toasts id = some ⟨mkConfig o text, none, t0, d - e, true⟩ := by
    rw [hs3b]
    simp [mapGet_mapUpdate, hg2, pausedRecord, hcd, he]
  have hi3 : Inv s3 := by rw [hs3]; exact Inv_pauseTimer s2 id (t0 + e) hi2
  have hle3 : id ≤ s3.toastCounter := by
    rw [hs3, pauseTimer_toastCounter]; exact hle2
  have hg4 : mapGet s4.toasts id = some ⟨mkConfig o text, none, t0, d - e, true⟩ := by
    rcases run_frame es3 s3 id _ hle3 (Or.inr hg3) (fun h => by simp at h)
      (fun _ => hes3) with h | h
    · rw [← hs4] at h; exact absurd h hreg4
    · rw [← hs4] at h; exact h
  have hi4 : Inv s4 := by rw [hs4]; exact Inv_run es3 s3 hi3
  have hd4 : ¬ (mkConfig o text).duration ≤ 0 := by rw [hcd]; omega
  have hg5 := resumeTimer_mapGet_paused s4 id t1 _ hg4 rfl
  rw [← hs5] at hg5
  simp only [hd4, if_false, resumedRecord] at hg5
  have hp5 := resumeTimer_pending_paused s4 id t1 _ hg4 rfl (by simpa using not_le.mp hd4)
  rw [← hs5] at hp5
  refine ⟨⟨?_, ?_, ?_, ?_, ?_, ?_⟩, ?_, ?_, ?_, ?_⟩
  · rw [hg3]; rfl
  · rw [hg3]; rfl
  · rw [hg3]; rfl
  · rw [hg2]; rfl
  · rw [hs3b]
  · exact dismissalsOf_idle s3 id _ hi3 hg3 rfl
  · rw [hg5]; rfl
  · rw [hg5]; rfl
  · rw [hg5]; rfl
  · have h4 := dismissalsOf_idle s4 id _ hi4 hg4 rfl
    unfold dismissalsOf at h4 ⊢
    rw [hp5, List.filter_append, h4]
    simp

theorem first_pause_then_resume_witness :
    dismissalsOf (resumeTimer (pauseTimer (showToast init (request "a" 3000) 0).1 1 1000)
      1 6000) 1 = [⟨2, 2000, Action.dismiss 1⟩] :=
  (first_pause_then_resume [] [] [] { text := some "a", duration := some 3000 } 1
    3000 0 1000 6000
    (showToast init (request "a" 3000) 0).1
    (showToast init (request "a" 3000) 0).1
    (pauseTimer (showToast init (request "a" 3000) 0).1 1 1000)
    (pauseTimer (showToast init (request "a" 3000) 0).1 1 1000)
    (resumeTimer (pauseTimer (showToast init (request "a" 3000) 0).1 1 1000) 1 6000)
    (by decide) (by decide) (by decide) rfl
    (by simp) (by decide) (by decide) rfl rfl (by simp) (by decide) rfl).2.2.2.2

/-- C6: `dismiss(id)` twice is `dismiss(id)` once, on the whole state: the first call
leaves `id` unregistered at once, a call on an unregistered id changes nothing, and
`pauseTimer` and `resumeTimer` on the dismissed id change nothing. In a state reached
from the constructor the first call calls `clearTimeout` on the toast's handle, no
task with that handle stays pending and no dismissal of `id` stays pending. -/
theorem dismiss_idempotent (s : State) (es : List Event) (id : Nat) (now : Int) :
    dismiss (dismiss s id) id = dismiss s id
    ∧ mapGet (dismiss s id).toasts id = none
    ∧ (mapGet s.toasts id = none → dismiss s id = s)
    ∧ pauseTimer (dismiss s id) id now = dismiss s id
    ∧ resumeTimer (dismiss s id) id now = dismiss s id
    ∧ (∀ h, (mapGet (run init es).toasts id).map Toast.timer = some (some h) →
        (dismiss (run init es) id).cancelled = (run init es).cancelled ++ [h]
        ∧ ∀ t ∈ (dismiss (run init es) id).pending, t.handle ≠ h)
    ∧ dismissalsOf (dismiss (run init es) id) id = [] := by
  have hgone : mapGet (dismiss s id).toasts id = none := by
    simp [dismiss_mapGet]
  have hi : Inv (run init es) := Inv_run es init Inv_init
  refine ⟨dismiss_none _ id hgone, hgone, dismiss_none s id,
    pauseTimer_none _ id now hgone, resumeTimer_none _ id now hgone, ?_, ?_⟩
  · intro h hh
    cases hg : mapGet (run init es).toasts id with
    | none => simp [hg] at hh
    | some toast =>
      simp only [hg, Option.map_some', Option.some.injEq] at hh
      rw [dismiss_some _ id toast hg]
      simp only [hh]
      refine ⟨trivial, ?_⟩
      intro t ht
      simp only [List.mem_append, List.mem_filter, List.mem_singleton,
        decide_eq_true_eq] at ht
      rcases ht with ht | ht
      · exact ht.2
      · have := hi.timer_le id toast h hg hh
        subst ht
        simp only
        omega
  · apply dismissalsOf_unregistered _ id (Inv_dismiss _ id hi)
    simp [dismiss_mapGet]

theorem dismiss_idempotent_witness :
    dismiss init 1 = init
    ∧ (dismiss (run init [Event.show (request "a" 3000) 0]) 1).cancelled
        = (run init [Event.show (request "a" 3000) 0]).cancelled ++ [1] :=
  ⟨(dismiss_idempotent init [Event.show (request "a" 3000) 0] 1 0).2.2.1 (by decide),
   ((dismiss_idempotent init [Event.show (request "a" 3000) 0] 1 0).2.2.2.2.2.1 1
      (by decide)).1⟩

/-- C7, counterexample: the toast created by `show` with duration 0 has no timer and
is not paused; `pauseTimer` on it changes the state: it marks the toast paused. -/
theorem pauseTimer_duration_zero_changes_state :
    (mapGet (run init [Event.show (request "a" 0) 0]).toasts 1).map
        (fun t => (t.config.duration, t.timer, t.isPaused)) = some (0, none, false)
    ∧ pauseTimer (run init [Event.show (request "a" 0) 0]) 1 100
        ≠ run init [Event.show (request "a" 0) 0]
    ∧ (mapGet (pauseTimer (run init [Event.show (request "a" 0) 0]) 1 100).toasts 1).map
        Toast.isPaused = some true := by
  decide

/-- C7, amended: `pauseTimer(id)` leaves the whole state unchanged when `id` is not
registered or the toast is already paused. On a registered toast that is not paused
and has no timer (as when its duration is 0) it changes nothing but the record of
that toast: `isPaused` becomes true and `remainingTime` becomes
`max 0 (duration - (now - startTime))`, while `config`, `startTime` and the null
`timer` stay; nothing is scheduled or cancelled. -/
theorem pauseTimer_frame (s : State) (id : Nat) (now : Int) :
    (mapGet s.toasts id = none → pauseTimer s id now = s)
    ∧ ((mapGet s.toasts id).map Toast.isPaused = some true → pauseTimer s id now = s)
    ∧ (∀ toast, mapGet s.toasts id = some toast → toast.isPaused = false →
        toast.timer = none →
        pauseTimer s id now
          = { s with toasts := mapUpdate s.toasts id (pausedRecord toast now) }
        ∧ pausedRecord toast now
          = ⟨toast.config, none, toast.startTime,
             max 0 (toast.config.duration - (now - toast.startTime)), true⟩) := by
  refine ⟨pauseTimer_none s id now, ?_, ?_⟩
  · intro h
    cases hg : mapGet s.toasts id with
    | none => exact pauseTimer_none s id now hg
    | some toast =>
      simp only [hg, Option.map_some', Option.some.injEq] at h
      exact pauseTimer_paused s id now toast hg h
  · intro toast hg hp htm
    rw [pauseTimer_running s id now toast hg hp]
    simp [htm, pausedRecord]

theorem pauseTimer_frame_witness :
    pauseTimer init 1 100 = init
    ∧ pauseTimer (run init [Event.show (request "a" 3000) 0, Event.pauseTimer 1 10]) 1 100
        = run init [Event.show (request "a" 3000) 0, Event.pauseTimer 1 10]
    ∧ (mapGet (pauseTimer (run init [Event.show (request "a" 0) 0]) 1 100).toasts 1).map
        Toast.isPaused = some true :=
  ⟨(pauseTimer_frame init 1 100).1 (by decide),
   (pauseTimer_frame _ 1 100).2.1 (by decide),
   by
     rw [((pauseTimer_frame (run init [Event.show (request "a" 0) 0]) 1 100).2.2
       (newRecord (mkConfig { text := some "a", duration := some 0 } "a") 0)
       (by decide) (by decide) (by decide)).1]
     decide⟩

/-- C8: a toast created with duration 0 never has a dismissal timer. After the
`show` and any sequence of events `es2` (in particular any `pauseTimer` and
`resumeTimer` calls on it), if it is still registered its `timer` is null, and no
pending dismissal targets its id (while it is registered, no pending callback of any
kind does); and through any events other than an explicit
`dismiss` of it, a `show` (eviction) or `clearAll` (so: pauses, resumes, callbacks
of timers and exit animations, dismissals of other toasts) it stays registered. -/
theorem zero_duration_never_scheduled (es es2 : List Event) (o : Options) (t0 : Int)
    (id : Nat) (s1 : State)
    (hshow : showToast (run init es) (some o) t0 = (s1, some id))
    (hdur : o.duration = some 0) :
    (∀ toast, mapGet (run s1 es2).toasts id = some toast →
        toast.timer = none ∧ toast.config.duration = 0
        ∧ ∀ t ∈ (run s1 es2).pending, t.action.target ≠ id)
    ∧ dismissalsOf (run s1 es2) id = []
    ∧ ((∀ ev ∈ es2, isRemoval id ev = false) → mapGet (run s1 es2).toasts id ≠ none) := by
  obtain ⟨o1, text, ho, htext, hne, hs1, hid⟩ := showToast_success _ _ _ _ _ hshow
  cases ho
  have hi0 : Inv (run init es) := Inv_run es init Inv_init
  have hcd : (mkConfig o text).duration = 0 := by simp [mkConfig, hdur]
  have hi1 : Inv s1 := by rw [hs1]; exact Inv_showConfig _ _ _ hi0
  have hg1 : mapGet s1.toasts id = some (newRecord (mkConfig o text) t0) := by
    rw [hid, hs1, showConfig_mapGet_new]
    simp [hcd]
  have hle1 : id ≤ s1.toastCounter := by
    rw [hs1, showConfig_toastCounter, hid]
  have hi2 : Inv (run s1 es2) := Inv_run es2 s1 hi1
  have hcfg := run_config es2 s1 id (mkConfig o text) hle1
    (fun t ht => by rw [hg1] at ht; cases ht; rfl)
  have htimer : ∀ toast, mapGet (run s1 es2).toasts id = some toast →
      toast.timer = none ∧ toast.config.duration = 0 := by
    intro toast hg
    have hc := hcfg toast hg
    have hd0 : toast.config.duration = 0 := by rw [hc]; exact hcd
    exact ⟨hi2.no_timer id toast hg (le_of_eq hd0), hd0⟩
  refine ⟨fun toast hg => ⟨(htimer toast hg).1, (htimer toast hg).2,
    no_task_targets_idle _ id toast hi2 hg (htimer toast hg).1⟩, ?_, ?_⟩
  · cases hg : mapGet (run s1 es2).toasts id with
    | none => exact dismissalsOf_unregistered _ id hi2 hg
    | some toast => exact dismissalsOf_idle _ id toast hi2 hg (htimer toast hg).1
  · intro hev
    exact run_keeps_idle es2 s1 id hi1 hle1
      ⟨_, hg1, by simp [newRecord, hcd]⟩ hev

theorem zero_duration_never_scheduled_witness :
    dismissalsOf (run (showToast init (request "a" 0) 0).1
      [Event.pauseTimer 1 50, Event.resumeTimer 1 70, Event.fire 1]) 1 = []
    ∧ mapGet (run (showToast init (request "a" 0) 0).1
      [Event.pauseTimer 1 50, Event.resumeTimer 1 70, Event.fire 1]).toasts 1 ≠ none :=
  ⟨(zero_duration_never_scheduled [] [Event.pauseTimer 1 50, Event.resumeTimer 1 70,
      Event.fire 1] { text := some "a", duration := some 0 } 0 1
      (showToast init (request "a" 0) 0).1 (by decide) (by decide)).2.1,
   (zero_duration_never_scheduled [] [Event.pauseTimer 1 50, Event.resumeTimer 1 70,
      Event.fire 1] { text := some "a", duration := some 0 } 0 1
      (showToast init (request "a" 0) 0).1 (by decide) (by decide)).2.2 (by decide)⟩

/-- C9: in every state reached from the constructor, `clearAll()` empties the
registry; the `clearTimeout` calls it makes are exactly the handles of the toasts
that had a timer, in registry order, each handle once; and no dismissal task is
left pending. -/
theorem clearAll_cancels_every_timer (es : List Event) :
    (clearAll (run init es)).toasts = []
    ∧ (clearAll (run init es)).cancelled
        = (run init es).cancelled ++ (run init es).toasts.filterMap (fun p => p.2.timer)
    ∧ (∀ id h, (mapGet (run init es).toasts id).map Toast.timer = some (some h) →
        ((run init es).toasts.filterMap (fun p => p.2.timer)).count h = 1)
    ∧ (∀ t ∈ (clearAll (run init es)).pending, ∀ id, t.action ≠ Action.dismiss id) := by
  have hi : Inv (run init es) := Inv_run es init Inv_init
  obtain ⟨h1, h2⟩ := foldl_dismiss_all (run init es).toasts (run init es) rfl hi.keys_nodup
  refine ⟨h1, h2, ?_, ?_⟩
  · intro id h hh
    cases hg : mapGet (run init es).toasts id with
    | none => simp [hg] at hh
    | some toast =>
      simp only [hg, Option.map_some', Option.some.injEq] at hh
      apply List.count_eq_one_of_mem (timers_nodup _ hi.keys_nodup hi.timer_inj)
      exact List.mem_filterMap.mpr ⟨(id, toast), mapGet_mem _ _ _ hg, hh⟩
  · intro t ht id ha
    obtain ⟨toast, hg, _⟩ := (Inv_clearAll _ hi).owner t ht id ha
    have h1b : (clearAll (run init es)).toasts = [] := h1
    rw [h1b] at hg
    simp [mapGet] at hg

theorem clearAll_cancels_every_timer_witness :
    ((run init [Event.show (request "a" 3000) 0, Event.show (request "b" 0) 1,
        Event.show (request "c" 500) 2]).toasts.filterMap (fun p => p.2.timer)).count 2 = 1 :=
  (clearAll_cancels_every_timer [Event.show (request "a" 3000) 0,
    Event.show (request "b" 0) 1, Event.show (request "c" 500) 2]).2.2.1 3 2 (by decide)

/-- C10: along every sequence of events the ids returned by the successful `show`
calls are strictly increasing; and the id a further successful `show` returns is
greater than all of them, greater than the id of every registered toast, and not
registered before the call. Failed `show` calls and evictions are events like the
others. -/
theorem show_ids_strictly_increase (es : List Event) :
    (shownIds init es).Pairwise (fun a b => a < b)
    ∧ (∀ options now id, (showToast (run init es) options now).2 = some id →
        (∀ j ∈ shownIds init es, j < id)
        ∧ (∀ k toast, mapGet (run init es).toasts k = some toast → k < id)
        ∧ mapGet (run init es).toasts id = none) := by
  have hi : Inv (run init es) := Inv_run es init Inv_init
  refine ⟨shownIds_pairwise es init, ?_⟩
  intro options now id hid
  have hid1 : id = (run init es).toastCounter + 1 := by
    rcases showToast_cases (run init es) options now with h | ⟨config, h⟩
    · rw [h] at hid; cases hid
    · rw [h] at hid
      simp only [Option.some.injEq] at hid
      exact hid.symm
  have hreg : ∀ k toast, mapGet (run init es).toasts k = some toast → k < id := by
    intro k toast hg
    have := hi.ids_le k toast hg
    omega
  refine ⟨?_, hreg, ?_⟩
  · intro j hj
    have := shownIds_le es init j hj
    omega
  · cases hg : mapGet (run init es).toasts id with
    | none => rfl
    | some toast => exact absurd (hreg id toast hg) (lt_irrefl _)

theorem show_ids_strictly_increase_witness :
    (∀ j ∈ shownIds init (List.replicate 6 (Event.show (request "a" 3000) 0)
        ++ [Event.show none 5, Event.dismiss 3]), j < 7)
    ∧ mapGet (run init (List.replicate 6 (Event.show (request "a" 3000) 0)
        ++ [Event.show none 5, Event.dismiss 3])).toasts 7 = none :=
  ⟨((show_ids_strictly_increase (List.replicate 6 (Event.show (request "a" 3000) 0)
      ++ [Event.show none 5, Event.dismiss 3])).2 (request "b" 10) 9 7 (by decide)).1,
   ((show_ids_strictly_increase (List.replicate 6 (Event.show (request "a" 3000) 0)
      ++ [Event.show none 5, Event.dismiss 3])).2 (request "b" 10) 9 7 (by decide)).2.2⟩

end ToastManager
